import Mathlib

set_option maxRecDepth 8000

namespace HA

/-! Shallow embedding of the authentication store
(`homeassistant/auth/auth_store.py`): the entity model, the load/migration
pipeline, the serializer and the mutating operations, together with theorems
settling the specification claims about them.

Python dictionaries are embedded as insertion-ordered association lists
(`List (String × α)`): lookup returns the value of the key's unique entry,
assignment updates an existing entry in place or appends a fresh one, and
deletion removes the entry.  Fallible code (`KeyError`, `ValueError`) is
embedded with `Option`/`Except`.  Timestamps and the random ids generated by
`models.User` / `models.RefreshToken` are taken as explicit inputs. -/

/-- Reserved id of the system admin group (`GROUP_ID_ADMIN` from
`homeassistant/auth/const.py`, which is not among the sources.  Modelled from
the spec: three reserved group-id constants that never collide with generated
ids). -/
def GROUP_ID_ADMIN : String := "system-admin"

/-- Reserved id of the system users group (`GROUP_ID_USER`; Modelled from the
spec, see `GROUP_ID_ADMIN`). -/
def GROUP_ID_USER : String := "system-users"

/-- Reserved id of the system read-only group (`GROUP_ID_READ_ONLY`; Modelled
from the spec, see `GROUP_ID_ADMIN`). -/
def GROUP_ID_READ_ONLY : String := "system-read-only"

/-- Human readable name of the admin group (`GROUP_NAME_ADMIN`). -/
def GROUP_NAME_ADMIN : String := "Administrators"

/-- Human readable name of the users group (`GROUP_NAME_USER`). -/
def GROUP_NAME_USER : String := "Users"

/-- Human readable name of the read-only group (`GROUP_NAME_READ_ONLY`). -/
def GROUP_NAME_READ_ONLY : String := "Read Only"

/-- Token type `normal` (`models.TOKEN_TYPE_NORMAL`; Modelled from the spec:
`token_type: enum \x7bnormal, system, long_lived_access\x7d`, carried as a
string by the store). -/
def TOKEN_TYPE_NORMAL : String := "normal"

/-- Token type `system` (`models.TOKEN_TYPE_SYSTEM`; Modelled from the spec,
see `TOKEN_TYPE_NORMAL`). -/
def TOKEN_TYPE_SYSTEM : String := "system"

/-- Token type `long_lived_access` (`models.TOKEN_TYPE_LONG_LIVED_ACCESS`;
Modelled from the spec, see `TOKEN_TYPE_NORMAL`). -/
def TOKEN_TYPE_LONG_LIVED_ACCESS : String := "long_lived_access"

/-- Policy documents.  Modelled from the spec: the store treats policies as
opaque data; the three system policies (`system_policies.ADMIN_POLICY`,
`USER_POLICY`, `READ_ONLY_POLICY`, defined outside the sources) are fixed
distinct constants, and user-defined groups carry arbitrary policy data. -/
inductive Policy where
  | adminPolicy : Policy
  | userPolicy : Policy
  | readOnlyPolicy : Policy
  | custom (data : String) : Policy
deriving DecidableEq, Repr

/-- Timestamp strings.  Modelled from the spec: timestamps serialize as
ISO-8601 via `datetime.isoformat` and are read back by
`dt_util.parse_datetime`; a string either denotes a datetime (here a `Nat`
instant) or fails to parse. -/
inductive DtStr where
  | iso (instant : Nat) : DtStr
  | notADate (raw : String) : DtStr
deriving DecidableEq, Repr

/-- `dt_util.parse_datetime` (Modelled from the spec, see `DtStr`). -/
def parse_datetime : DtStr → Option Nat
  | .iso t => some t
  | .notADate _ => none

/-- `datetime.isoformat` (Modelled from the spec, see `DtStr`). -/
def isoformat (t : Nat) : DtStr := .iso t

/-- `models.Credentials`: id, provider coordinates, opaque data blob and the
`is_new` flag.  The `data` blob is opaque to the store and is embedded as a
string. -/
structure Credentials where
  id : String
  auth_provider_type : String
  auth_provider_id : String
  data : String
  is_new : Bool
deriving DecidableEq, Repr

/-- `models.Group`. -/
structure Group where
  id : String
  name : String
  policy : Option Policy
  system_generated : Bool
deriving DecidableEq, Repr

/-- `models.RefreshToken`.  The back reference to the owning user is implicit
via ownership (the token lives in exactly one user's `refresh_tokens` map);
the weak `credential` reference holds the credential value or is null. -/
structure RefreshToken where
  id : String
  client_id : Option String
  client_name : Option String
  client_icon : Option String
  token_type : String
  created_at : Nat
  access_token_expiration : Nat
  token : String
  jwt_key : String
  last_used_at : Option Nat
  last_used_ip : Option String
  expire_at : Option Nat
  credential : Option Credentials
  version : Option String
deriving DecidableEq, Repr

/-- `models.User`: `refresh_tokens` is the user's insertion-ordered map from
token id to token. -/
structure User where
  id : String
  name : Option String
  groups : List Group
  is_owner : Bool
  is_active : Bool
  system_generated : Bool
  local_only : Bool
  credentials : List Credentials
  refresh_tokens : List (String × RefreshToken)
deriving DecidableEq, Repr

/-- The in-memory state of `AuthStore`: `_users`, `_groups` and
`_token_id_to_user_id` (each a Python dict, embedded as an insertion-ordered
association list). -/
structure AuthStore where
  users : List (String × User)
  groups : List (String × Group)
  token_id_to_user_id : List (String × String)
deriving DecidableEq, Repr

/-- Persisted group record: `\x7bid, name, policy?\x7d`. -/
structure GroupRecord where
  id : String
  name : String
  policy : Option Policy
deriving DecidableEq, Repr

/-- Persisted user record.  `local_only` and `group_ids` are read with
`.get` defaults, the other keys are required. -/
structure UserRecord where
  id : String
  name : Option String
  is_owner : Bool
  is_active : Bool
  system_generated : Bool
  local_only : Option Bool
  group_ids : List String
deriving DecidableEq, Repr

/-- Persisted credential record. -/
structure CredRecord where
  id : String
  user_id : String
  auth_provider_type : String
  auth_provider_id : String
  data : String
deriving DecidableEq, Repr

/-- Persisted refresh-token record.  `jwt_key = none` means the key is absent
from the record; `created_at = none` covers both an absent key and a
non-string value (the code treats the two identically through its
`isinstance(created_at_str, str)` test); `credential_id = none` covers both an
absent key and a null value (both leave the credential reference null);
`token_type = none` means the key is absent. -/
structure RefreshTokenRecord where
  id : String
  user_id : String
  client_id : Option String
  client_name : Option String
  client_icon : Option String
  token_type : Option String
  created_at : Option DtStr
  access_token_expiration : Nat
  token : String
  jwt_key : Option String
  last_used_at : Option DtStr
  last_used_ip : Option String
  expire_at : Option Nat
  credential_id : Option String
  version : Option String
deriving DecidableEq, Repr

/-- The persisted document (version 1): `users`, `groups`, `credentials` and
`refresh_tokens` key of the stored data.  The `groups` key is read with a
`.get` default, so an absent key coincides with the empty list. -/
structure PersistedDoc where
  users : List UserRecord
  groups : List GroupRecord
  credentials : List CredRecord
  refresh_tokens : List RefreshTokenRecord
deriving DecidableEq, Repr

/-! ### Association lists standing for Python dicts -/

/-- Dict lookup: value of the first entry with the given key. -/
def dlookup (k : String) : List (String × α) → Option α
  | [] => none
  | p :: rest => if p.1 = k then some p.2 else dlookup k rest

/-- Dict assignment `d[k] = v`: update an existing entry in place (keeping its
position) or append a fresh entry. -/
def dictSet (d : List (String × α)) (k : String) (v : α) : List (String × α) :=
  if (dlookup k d).isSome then
    d.map fun p => if p.1 = k then (k, v) else p
  else d ++ [(k, v)]

/-- Dict deletion `del d[k]` (on dicts the key occurs at most once, so
filtering all entries with the key coincides with removing its entry). -/
def dictDel (d : List (String × α)) (k : String) : List (String × α) :=
  d.filter fun p => p.1 ≠ k

/-- Key list of a dict. -/
def dkeys (d : List (String × α)) : List String := d.map Prod.fst

/-! ### The load pipeline -/

/-- `system_admin_group`. -/
def system_admin_group : Group :=
  { name := GROUP_NAME_ADMIN
    id := GROUP_ID_ADMIN
    policy := some .adminPolicy
    system_generated := true }

/-- `system_user_group`. -/
def system_user_group : Group :=
  { name := GROUP_NAME_USER
    id := GROUP_ID_USER
    policy := some .userPolicy
    system_generated := true }

/-- `system_read_only_group`. -/
def system_read_only_group : Group :=
  { name := GROUP_NAME_READ_ONLY
    id := GROUP_ID_READ_ONLY
    policy := some .readOnlyPolicy
    system_generated := true }

/-- `AuthStore.get_group_policy`: policy, name and `system_generated` for a
persisted group record; the three system ids get the hardcoded values, any
other record keeps its stored name and (possibly absent) policy. -/
def get_group_policy (g : GroupRecord) : Option Policy × String × Bool :=
  if g.id = GROUP_ID_ADMIN then (some .adminPolicy, GROUP_NAME_ADMIN, true)
  else if g.id = GROUP_ID_USER then (some .userPolicy, GROUP_NAME_USER, true)
  else if g.id = GROUP_ID_READ_ONLY then
    (some .readOnlyPolicy, GROUP_NAME_READ_ONLY, true)
  else (g.policy, g.name, false)

/-- Result flags of `AuthStore._initialize_groups` (the `has_groups` dict). -/
structure HasGroups where
  has_admin_group : Bool
  has_user_group : Bool
  has_read_only_group : Bool
  group_without_policy : Option String
deriving DecidableEq, Repr

/-- One iteration of the loop of `AuthStore._initialize_groups`. -/
def initGroupsStep (acc : List (String × Group) × HasGroups) (g : GroupRecord) :
    List (String × Group) × HasGroups :=
  let (groups, has) := acc
  let (policy, name, system_generated) := get_group_policy g
  if policy = none ∧ system_generated = false then
    (groups, { has with group_without_policy := some g.id })
  else
    (dictSet groups g.id
      { id := g.id, name := name, policy := policy
        system_generated := system_generated },
     if g.id = GROUP_ID_ADMIN then { has with has_admin_group := true }
     else if g.id = GROUP_ID_USER then { has with has_user_group := true }
     else if g.id = GROUP_ID_READ_ONLY then
       { has with has_read_only_group := true }
     else has)

/-- `AuthStore._initialize_groups`: fold the persisted group records, loading
each record unless it is quarantined (no policy and not system generated), and
track which system groups were seen plus the last quarantined id. -/
def init_groups (records : List GroupRecord) :
    List (String × Group) × HasGroups :=
  records.foldl initGroupsStep
    ([], { has_admin_group := false, has_user_group := false
           has_read_only_group := false, group_without_policy := none })

/-- The group-id resolution loop of `AuthStore.get_user_groups`: each id is
first rewritten by the "old user-group id to admin group id" migration, then
looked up in the loaded groups (a `KeyError`, embedded as `none`, aborts the
load). -/
def resolveUserGroupIds (groups : List (String × Group)) :
    List String → Option (List Group)
  | [] => some []
  | gid :: rest =>
    let gid := if gid = GROUP_ID_USER then GROUP_ID_ADMIN else gid
    match dlookup gid groups with
    | none => none
    | some g => (resolveUserGroupIds groups rest).map (g :: ·)

/-- `AuthStore.get_user_groups`: resolve the record's group ids, then append
the admin group when the installation-wide migration applies and the user is
not system generated. -/
def get_user_groups (r : UserRecord) (groups : List (String × Group))
    (migrate_to_admin : Bool) : Option (List Group) :=
  match resolveUserGroupIds groups r.group_ids with
  | none => none
  | some user_groups =>
    if r.system_generated = false ∧ migrate_to_admin then
      match dlookup GROUP_ID_ADMIN groups with
      | none => none
      | some g => some (user_groups ++ [g])
    else some user_groups

/-- User value reconstructed from a persisted record by `load_users`
(`models.User(...)` with empty credential and token collections). -/
def userFromRecord (r : UserRecord) (user_groups : List Group) : User :=
  { name := r.name
    groups := user_groups
    id := r.id
    is_owner := r.is_owner
    is_active := r.is_active
    system_generated := r.system_generated
    local_only := r.local_only.getD false
    credentials := []
    refresh_tokens := [] }

/-- `AuthStore._load_users`: reconstruct each persisted user (with empty
credential and token collections) and store it under its persisted id. -/
def load_users (records : List UserRecord) (groups : List (String × Group))
    (migrate_to_admin : Bool) (users : List (String × User)) :
    Option (List (String × User)) :=
  match records with
  | [] => some users
  | r :: rest =>
    match get_user_groups r groups migrate_to_admin with
    | none => none
    | some user_groups =>
      load_users rest groups migrate_to_admin
        (dictSet users r.id (userFromRecord r user_groups))

/-- Credential value reconstructed from a persisted record
(`models.Credentials(id=…, is_new=False, …)`). -/
def credFromRecord (c : CredRecord) : Credentials :=
  { id := c.id
    auth_provider_type := c.auth_provider_type
    auth_provider_id := c.auth_provider_id
    data := c.data
    is_new := false }

/-- `AuthStore.load_credentials`: reconstruct each credential, register it in
the credential dict and append it to its owning user; a record referencing a
nonexistent user is a `KeyError` (`none`) that aborts the load. -/
def load_credentials (records : List CredRecord) (users : List (String × User))
    (credentials : List (String × Credentials)) :
    Option (List (String × User) × List (String × Credentials)) :=
  match records with
  | [] => some (users, credentials)
  | c :: rest =>
    match dlookup c.user_id users with
    | none => none
    | some u =>
      load_credentials rest
        (dictSet users c.user_id
          { u with credentials := u.credentials ++ [credFromRecord c] })
        (dictSet credentials c.id (credFromRecord c))

/-- Token value reconstructed from a persisted record by
`load_refresh_tokens`, given the parsed creation instant and the credential
dict for resolving the optional credential link (silently null when the id is
unknown). -/
def tokenFromRecord (r : RefreshTokenRecord) (created_at : Nat)
    (credentials : List (String × Credentials)) : RefreshToken :=
  { id := r.id
    client_id := r.client_id
    client_name := r.client_name
    client_icon := r.client_icon
    token_type := r.token_type.getD
      (if r.client_id = none then TOKEN_TYPE_SYSTEM
       else TOKEN_TYPE_NORMAL)
    created_at := created_at
    access_token_expiration := r.access_token_expiration
    token := r.token
    jwt_key := r.jwt_key.getD ""
    last_used_at := r.last_used_at.bind parse_datetime
    last_used_ip := r.last_used_ip
    expire_at := r.expire_at
    credential := r.credential_id.bind (dlookup · credentials)
    version := r.version }

/-- `AuthStore.load_refresh_tokens`: per record, skip it silently when
`jwt_key` is absent; skip it with a logged error (the record id is appended to
the log) when `created_at` is absent, not a string or unparsable; otherwise
reconstruct the token — defaulting `token_type` from the presence of a client
id and resolving the optional credential reference, silently null when unknown
— and register it in its owning user's map (a nonexistent owner is a
`KeyError`, `none`, aborting the load). -/
def load_refresh_tokens (records : List RefreshTokenRecord)
    (users : List (String × User))
    (credentials : List (String × Credentials)) :
    Option (List (String × User) × List String) :=
  match records with
  | [] => some (users, [])
  | r :: rest =>
    if r.jwt_key = none then load_refresh_tokens rest users credentials
    else
      match r.created_at with
      | none =>
        (load_refresh_tokens rest users credentials).map
          fun p => (p.1, r.id :: p.2)
      | some created_at_str =>
        match parse_datetime created_at_str with
        | none =>
          (load_refresh_tokens rest users credentials).map
            fun p => (p.1, r.id :: p.2)
        | some created_at =>
          match dlookup r.user_id users with
          | none => none
          | some u =>
            load_refresh_tokens rest
              (dictSet users r.user_id
                { u with refresh_tokens := dictSet u.refresh_tokens (tokenFromRecord r created_at credentials).id (tokenFromRecord r created_at credentials) })
              credentials

/-- `AuthStore.build_token_id_to_user_id`: the dict comprehension
`\x7btoken_id: user_id for user_id, user in users for token_id in
user.refresh_tokens\x7d`. -/
def build_token_id_to_user_id (users : List (String × User)) :
    List (String × String) :=
  users.foldl
    (fun idx p => p.2.refresh_tokens.foldl
      (fun idx2 q => dictSet idx2 q.1 p.1) idx)
    []

/-- `AuthStore.set_defaults`: empty user set and the three system groups. -/
def set_defaults : AuthStore :=
  { users := []
    groups :=
      dictSet (dictSet (dictSet [] system_admin_group.id system_admin_group)
        system_user_group.id system_user_group)
        system_read_only_group.id system_read_only_group
    token_id_to_user_id := build_token_id_to_user_id [] }

/-- The system-group backfill steps of `AuthStore.async_load` (admin, then
read-only, then user, each added only when its flag is unset). -/
def backfillAdmin (gs : List (String × Group)) (has : HasGroups) :
    List (String × Group) :=
  if has.has_admin_group then gs
  else dictSet gs GROUP_ID_ADMIN system_admin_group

/-- Backfill step for the read-only group (see `backfillAdmin`). -/
def backfillReadOnly (gs : List (String × Group)) (has : HasGroups) :
    List (String × Group) :=
  if has.has_read_only_group then gs
  else dictSet gs GROUP_ID_READ_ONLY system_read_only_group

/-- Backfill step for the users group (see `backfillAdmin`). -/
def backfillUser (gs : List (String × Group)) (has : HasGroups) :
    List (String × Group) :=
  if has.has_user_group then gs
  else dictSet gs GROUP_ID_USER system_user_group

/-- The three backfill steps in source order: admin, read-only, user. -/
def backfillSystemGroups (groups0 : List (String × Group)) (has : HasGroups) :
    List (String × Group) :=
  backfillUser (backfillReadOnly (backfillAdmin groups0 has) has) has

/-- The group dict obtained by `AuthStore.async_load` for a persisted
document: the loaded records with the missing system groups backfilled (in
source order: admin, read-only, user). -/
def loadedGroups (d : PersistedDoc) : List (String × Group) :=
  backfillSystemGroups (init_groups d.groups).1 (init_groups d.groups).2

/-- The migration decision of `AuthStore.async_load`: no group was loaded and
no quarantined (policy-less) group was seen. -/
def migrateFlag (d : PersistedDoc) : Bool :=
  (init_groups d.groups).1.isEmpty &&
    (init_groups d.groups).2.group_without_policy.isNone

/-- `AuthStore.async_load`: `none` input covers both absent and malformed
stored data (both take the defaults path).  Otherwise run the load pipeline:
initialize groups from the records, decide the admin-group migration (no group
loaded and no quarantined group seen), backfill the missing system groups,
load users, credentials and refresh tokens, and rebuild the token index.  An
embedded `none` result is a raised `KeyError` aborting the load.  (The
double-load guard, permission lookup and the scheduled save are process/timer
concerns that the claims do not touch and are not part of the state.) -/
def async_load (data : Option PersistedDoc) : Option AuthStore :=
  match data with
  | none => some set_defaults
  | some d =>
    match load_users d.users (loadedGroups d) (migrateFlag d) [] with
    | none => none
    | some users1 =>
      match load_credentials d.credentials users1 [] with
      | none => none
      | some (users2, credentials) =>
        match load_refresh_tokens d.refresh_tokens users2 credentials with
        | none => none
        | some (users3, _log) =>
          some
            { users := users3
              groups := loadedGroups d
              token_id_to_user_id := build_token_id_to_user_id users3 }

/-! ### Serialization -/

/-- One serialized group record of `_data_to_save`: system groups omit their
policy (re-derived on load), non-system groups include it. -/
def serGroupRec (g : Group) : GroupRecord :=
  { id := g.id
    name := g.name
    policy := if g.system_generated then none else g.policy }

/-- One serialized user record of `_data_to_save`. -/
def serUserRec (u : User) : UserRecord :=
  { id := u.id
    group_ids := u.groups.map Group.id
    is_owner := u.is_owner
    is_active := u.is_active
    name := u.name
    system_generated := u.system_generated
    local_only := some u.local_only }

/-- One serialized credential record of `_data_to_save` (`user_id` is the
owning user's `id` field). -/
def serCredRec (uid : String) (c : Credentials) : CredRecord :=
  { id := c.id
    user_id := uid
    auth_provider_type := c.auth_provider_type
    auth_provider_id := c.auth_provider_id
    data := c.data }

/-- One serialized refresh-token record of `_data_to_save`: every key is
written (possibly null), timestamps via `isoformat`, the credential link as
its id. -/
def serTokenRec (uid : String) (rt : RefreshToken) : RefreshTokenRecord :=
  { id := rt.id
    user_id := uid
    client_id := rt.client_id
    client_name := rt.client_name
    client_icon := rt.client_icon
    token_type := some rt.token_type
    created_at := some (isoformat rt.created_at)
    access_token_expiration := rt.access_token_expiration
    token := rt.token
    jwt_key := some rt.jwt_key
    last_used_at := rt.last_used_at.map isoformat
    last_used_ip := rt.last_used_ip
    expire_at := rt.expire_at
    credential_id := rt.credential.map Credentials.id
    version := rt.version }

/-- `AuthStore._data_to_save`: flatten users, groups, credentials and refresh
tokens to lists of records referencing each other by id; credential and token
records carry the owning user's `id` field as `user_id`. -/
def data_to_save (s : AuthStore) : PersistedDoc :=
  { users := s.users.map fun p => serUserRec p.2
    groups := s.groups.map fun p => serGroupRec p.2
    credentials := s.users.flatMap fun p =>
      p.2.credentials.map fun c => serCredRec p.2.id c
    refresh_tokens := s.users.flatMap fun p =>
      p.2.refresh_tokens.map fun q => serTokenRec p.2.id q.2 }

/-! ### Mutating operations -/

/-- The group-resolution loop shared by `async_create_user` and
`async_update_user`: look every id up in the live group set, raising
`ValueError` (embedded as `none`) on the first unknown id. -/
def resolveGroups (groups : List (String × Group)) :
    List String → Option (List Group)
  | [] => some []
  | gid :: rest =>
    match dlookup gid groups with
    | none => none
    | some g => (resolveGroups groups rest).map (g :: ·)

/-- `AuthStore.async_create_user` (with `async_link_user` folded in for the
optional initial credentials, whose `is_new` flag is cleared by the link).
`user_id` stands for the uuid generated by `models.User`; uuid freshness is
embedded as a guard, so the operation is stuck when the oracle repeats an id.
The constructor defaults for the absent optional flags are those of
`models.User` (not among the sources; Modelled from the spec: soft defaults,
and none of the claims depends on their values). -/
def async_create_user (s : AuthStore) (user_id : String) (name : Option String)
    (is_owner : Option Bool) (is_active : Option Bool)
    (system_generated : Option Bool) (credentials : Option Credentials)
    (group_ids : Option (List String)) (local_only : Option Bool) :
    Option AuthStore :=
  match resolveGroups s.groups (group_ids.getD []) with
  | none => none
  | some groups =>
    if (dlookup user_id s.users).isSome then none
    else
      let new_user : User :=
        { id := user_id
          name := name
          groups := groups
          is_owner := is_owner.getD false
          is_active := is_active.getD false
          system_generated := system_generated.getD false
          local_only := local_only.getD false
          credentials :=
            match credentials with
            | none => []
            | some c => [{ c with is_new := false }]
          refresh_tokens := [] }
      some { s with users := dictSet s.users user_id new_user }

/-- The index-deletion loop of `AuthStore.async_remove_user`: `del
self._token_id_to_user_id[refresh_token_id]` for every token id of the removed
user, where a missing id is a `KeyError` (`none`). -/
def delAllKeys (idx : List (String × String)) :
    List String → Option (List (String × String))
  | [] => some idx
  | t :: ts =>
    if (dlookup t idx).isSome then delAllKeys (dictDel idx t) ts else none

/-- `AuthStore.async_remove_user`: pop the user (a missing id is a `KeyError`)
and delete each of its token ids from the global index.  (The
`user.refresh_tokens.clear()` on the popped object does not affect the store's
state.) -/
def async_remove_user (s : AuthStore) (user_id : String) : Option AuthStore :=
  match dlookup user_id s.users with
  | none => none
  | some u =>
    match delAllKeys s.token_id_to_user_id (dkeys u.refresh_tokens) with
    | none => none
    | some idx =>
      some { s with users := dictDel s.users user_id
                    token_id_to_user_id := idx }

/-- The trailing attribute loop of `AuthStore.async_update_user`: assign
`name`, `is_active` and `local_only` when the corresponding argument is not
`None`. -/
def applyUserAttrs (u : User) (name : Option String) (is_active : Option Bool)
    (local_only : Option Bool) : User :=
  { u with
    name := match name with | some n => some n | none => u.name
    is_active := is_active.getD u.is_active
    local_only := local_only.getD u.local_only }

/-- `AuthStore.async_update_user`, acting on the user object mutated in place.
The source resolves the whole `group_ids` list against the live group set
first — raising `ValueError` on an unknown id — and only then assigns any
attribute, so the embedding returns `Except.error` carrying the user's state
at the raise point, which is the unmodified user. -/
def async_update_user (s : AuthStore) (u : User) (name : Option String)
    (is_active : Option Bool) (group_ids : Option (List String))
    (local_only : Option Bool) : Except User User :=
  match group_ids with
  | none => .ok (applyUserAttrs u name is_active local_only)
  | some gids =>
    match resolveGroups s.groups gids with
    | none => .error u
    | some gs => .ok (applyUserAttrs { u with groups := gs } name is_active
        local_only)

/-- `AuthStore.async_create_refresh_token`.  `token_id`, `token`, `jwt_key`
and `created_at` stand for the values generated by `models.RefreshToken`
(uuid, random secrets, `utcnow`); uuid freshness of the token id is embedded
as a guard on the global index.  The caller passes a live user of the store,
embedded as an id lookup.  `client_name` and `client_icon` are only set when
truthy (`if client_name:`), and `version` defaults to the constructor's value,
embedded as null (no claim depends on it). -/
def async_create_refresh_token (s : AuthStore) (user_id : String)
    (token_id : String) (token : String) (jwt_key : String) (created_at : Nat)
    (client_id : Option String) (client_name : Option String)
    (client_icon : Option String) (token_type : String)
    (access_token_expiration : Nat) (expire_at : Option Nat)
    (credential : Option Credentials) : Option AuthStore :=
  match dlookup user_id s.users with
  | none => none
  | some u =>
    if (dlookup token_id s.token_id_to_user_id).isSome then none
    else
      let refresh_token : RefreshToken :=
        { id := token_id
          client_id := client_id
          client_name :=
            match client_name with
            | some n => if n = "" then none else some n
            | none => none
          client_icon :=
            match client_icon with
            | some n => if n = "" then none else some n
            | none => none
          token_type := token_type
          created_at := created_at
          access_token_expiration := access_token_expiration
          token := token
          jwt_key := jwt_key
          last_used_at := none
          last_used_ip := none
          expire_at := expire_at
          credential := credential
          version := none }
      some { s with
        users := dictSet s.users user_id
          { u with refresh_tokens :=
              dictSet u.refresh_tokens token_id refresh_token }
        token_id_to_user_id := dictSet s.token_id_to_user_id token_id u.id }

/-- `AuthStore.async_remove_refresh_token` (only the id of the passed token
object is consulted).  The source guards with `if user_id :=
self._token_id_to_user_id.get(refresh_token_id):`, so both a missing entry and
an entry whose user id is the empty string (falsy in Python) are a no-op;
otherwise the token is deleted from the owning user's map and from the index
(`del` on a missing key is a `KeyError`, embedded as `none`). -/
def async_remove_refresh_token (s : AuthStore) (token_id : String) :
    Option AuthStore :=
  match dlookup token_id s.token_id_to_user_id with
  | none => some s
  | some user_id =>
    if user_id = "" then some s
    else
      match dlookup user_id s.users with
      | none => none
      | some u =>
        if (dlookup token_id u.refresh_tokens).isSome then
          some { s with
            users := dictSet s.users user_id
              { u with refresh_tokens := dictDel u.refresh_tokens token_id }
            token_id_to_user_id := dictDel s.token_id_to_user_id token_id }
        else none

/-- `hmac.compare_digest` (standard library, not among the sources; Modelled
from the spec: a constant-time string comparison whose boolean value is plain
equality — its timing property is captured operationally by counting its
invocations, see `async_get_refresh_token_by_token`). -/
def compare_digest (a b : String) : Bool := a == b

/-- Inner loop of `AuthStore.async_get_refresh_token_by_token` over one
user's tokens: the accumulator carries the `found` variable and the number of
`compare_digest` invocations so far; every token is compared and a match
overwrites `found` without breaking. -/
def findTokenInner (token : String) (acc : Option RefreshToken × Nat) :
    List (String × RefreshToken) → Option RefreshToken × Nat
  | [] => acc
  | q :: rest =>
    findTokenInner token
      (if compare_digest q.2.token token then (some q.2, acc.2 + 1)
       else (acc.1, acc.2 + 1)) rest

/-- Outer loop of `AuthStore.async_get_refresh_token_by_token` over all
users. -/
def findTokenOuter (token : String) (acc : Option RefreshToken × Nat) :
    List (String × User) → Option RefreshToken × Nat
  | [] => acc
  | p :: rest => findTokenOuter token (findTokenInner token acc p.2.refresh_tokens) rest

/-- `AuthStore.async_get_refresh_token_by_token`, instrumented with the number
of `compare_digest` invocations performed. -/
def async_get_refresh_token_by_token (s : AuthStore) (token : String) :
    Option RefreshToken × Nat :=
  findTokenOuter token (none, 0) s.users

/-- Total number of refresh tokens stored across all users. -/
def totalTokenCount (s : AuthStore) : Nat :=
  (s.users.map (fun p => p.2.refresh_tokens.length)).sum

/-! ### Operation sequences -/

/-- The store operations quantified over by the index-invariant claim: create
user, create refresh token, remove refresh token, remove user. -/
inductive StoreOp where
  | createUser (user_id : String) (name : Option String)
      (is_owner is_active system_generated : Option Bool)
      (credentials : Option Credentials) (group_ids : Option (List String))
      (local_only : Option Bool) : StoreOp
  | createRefreshToken (user_id token_id token jwt_key : String)
      (created_at : Nat) (client_id client_name client_icon : Option String)
      (token_type : String) (access_token_expiration : Nat)
      (expire_at : Option Nat) (credential : Option Credentials) : StoreOp
  | removeRefreshToken (token_id : String) : StoreOp
  | removeUser (user_id : String) : StoreOp
deriving DecidableEq, Repr

/-- Apply one store operation. -/
def applyOp (s : AuthStore) : StoreOp → Option AuthStore
  | .createUser uid n io ia sg c g lo => async_create_user s uid n io ia sg c g lo
  | .createRefreshToken uid tid tok jk ca ci cn cicon tt ate ea cred =>
    async_create_refresh_token s uid tid tok jk ca ci cn cicon tt ate ea cred
  | .removeRefreshToken tid => async_remove_refresh_token s tid
  | .removeUser uid => async_remove_user s uid

/-- Run a sequence of store operations. -/
def runOps (s : AuthStore) : List StoreOp → Option AuthStore
  | [] => some s
  | op :: ops =>
    match applyOp s op with
    | none => none
    | some s2 => runOps s2 ops

/-! ### Dictionary lemmas -/

theorem dlookup_nil {α : Type} (k : String) : dlookup k ([] : List (String × α)) = none := rfl

theorem dlookup_append_left {α : Type} {k : String} {a : List (String × α)}
    (b : List (String × α)) {v : α} (h : dlookup k a = some v) :
    dlookup k (a ++ b) = some v := by
  induction a with
  | nil => simp [dlookup] at h
  | cons p rest ih =>
    simp only [dlookup] at h
    simp only [List.cons_append, dlookup]
    split
    · split at h
      · exact h
      · simp_all
    · split at h
      · simp_all
      · exact ih h

theorem dlookup_append_right {α : Type} {k : String} {a : List (String × α)}
    (b : List (String × α)) (h : dlookup k a = none) :
    dlookup k (a ++ b) = dlookup k b := by
  induction a with
  | nil => rfl
  | cons p rest ih =>
    simp only [dlookup] at h
    simp only [List.cons_append, dlookup]
    split at h
    · exact absurd h (by simp)
    · simp only [if_neg (by assumption)]
      exact ih h

theorem dlookup_map_upd {α : Type} {k' : String} {v : α} (k : String)
    (d : List (String × α)) :
    dlookup k (d.map fun p => if p.1 = k' then (k', v) else p) =
      if k' = k then (dlookup k d).map (fun _ => v) else dlookup k d := by
  induction d with
  | nil => simp [dlookup]
  | cons p rest ih =>
    by_cases hk : k' = k
    · subst hk
      by_cases hpk : p.1 = k'
      · simp [dlookup, hpk, ih]
      · simp [dlookup, hpk, ih]
    · by_cases hpk : p.1 = k'
      · have hpk2 : ¬p.1 = k := by rw [hpk]; exact hk
        simp [dlookup, hpk, hk, hpk2, ih]
      · by_cases hpk2 : p.1 = k
        · have hks : ¬k = k' := fun h => hk h.symm
          simp [dlookup, hpk, hk, hpk2, hks]
        · simp [dlookup, hpk, hk, hpk2, ih]

theorem dlookup_dictSet {α : Type} (d : List (String × α)) (k' k : String)
    (v : α) :
    dlookup k (dictSet d k' v) = if k' = k then some v else dlookup k d := by
  unfold dictSet
  cases hpresent : dlookup k' d with
  | some w =>
    simp only [hpresent, Option.isSome_some, if_true]
    rw [dlookup_map_upd]
    by_cases hk : k' = k
    · subst hk
      simp [hpresent]
    · simp [hk]
  | none =>
    simp only [hpresent, Option.isSome_none, Bool.false_eq_true, if_false]
    by_cases hk : k' = k
    · subst hk
      rw [dlookup_append_right _ hpresent]
      simp [dlookup]
    · cases hcase : dlookup k d with
      | none =>
        rw [dlookup_append_right _ hcase]
        simp [dlookup, hk]
      | some w =>
        rw [dlookup_append_left _ hcase]
        simp [hk]

theorem dlookup_dictDel {α : Type} (d : List (String × α)) (k' k : String) :
    dlookup k (dictDel d k') = if k' = k then none else dlookup k d := by
  induction d with
  | nil => simp [dictDel, dlookup]
  | cons p rest ih =>
    simp only [dictDel, List.filter_cons, ne_eq, decide_not] at ih ⊢
    by_cases hpk : p.1 = k'
    · by_cases hk : k' = k
      · subst hk
        simpa [hpk, dlookup] using ih
      · have hpk2 : ¬p.1 = k := by rw [hpk]; exact hk
        simpa [hpk, hk, hpk2, dlookup] using ih
    · by_cases hk2 : p.1 = k
      · by_cases hk : k' = k
        · subst hk
          exact absurd hk2 hpk
        · have hks : ¬k = k' := fun h => hk h.symm
          simp [hpk, hk2, dlookup, ih, hk, hks]
      · simp [hpk, hk2, dlookup, ih]

theorem dkeys_map_upd {α : Type} (k' : String) (v : α)
    (d : List (String × α)) :
    dkeys (d.map fun p => if p.1 = k' then (k', v) else p) = dkeys d := by
  induction d with
  | nil => rfl
  | cons p rest ih =>
    simp only [dkeys, List.map_cons] at ih ⊢
    by_cases hpk : p.1 = k'
    · simp [hpk, ih]
    · simp [hpk, ih]

theorem dkeys_dictSet {α : Type} (d : List (String × α)) (k : String) (v : α) :
    dkeys (dictSet d k v) =
      if (dlookup k d).isSome then dkeys d else dkeys d ++ [k] := by
  unfold dictSet
  by_cases h : (dlookup k d).isSome
  · simp [h, dkeys_map_upd]
  · simp [h, dkeys]

theorem dlookup_isSome_iff {α : Type} (k : String) (d : List (String × α)) :
    (dlookup k d).isSome = true ↔ k ∈ dkeys d := by
  induction d with
  | nil => simp [dlookup, dkeys]
  | cons p rest ih =>
    simp only [dlookup, dkeys, List.map_cons, List.mem_cons]
    by_cases hpk : p.1 = k
    · simp [hpk]
    · have hks : ¬k = p.1 := fun h => hpk h.symm
      rw [if_neg hpk]
      constructor
      · intro h
        exact Or.inr (ih.mp h)
      · intro h
        cases h with
        | inl h => exact absurd h hks
        | inr h => exact ih.mpr h

theorem dlookup_none_iff {α : Type} (k : String) (d : List (String × α)) :
    dlookup k d = none ↔ k ∉ dkeys d := by
  rw [← dlookup_isSome_iff]
  cases dlookup k d <;> simp

theorem nodup_dkeys_dictSet {α : Type} {d : List (String × α)} (k : String)
    (v : α) (h : (dkeys d).Nodup) : (dkeys (dictSet d k v)).Nodup := by
  rw [dkeys_dictSet]
  by_cases hp : (dlookup k d).isSome
  · simp [hp, h]
  · simp only [hp, Bool.false_eq_true, if_false]
    refine List.Nodup.append h (List.nodup_singleton k) ?_
    intro a ha hb
    simp only [List.mem_singleton] at hb
    subst hb
    exact hp ((dlookup_isSome_iff a d).mpr ha)

theorem nodup_dkeys_dictDel {α : Type} {d : List (String × α)} (k : String)
    (h : (dkeys d).Nodup) : (dkeys (dictDel d k)).Nodup := by
  have hsub : List.Sublist ((dictDel d k).map Prod.fst) (d.map Prod.fst) :=
    List.Sublist.map Prod.fst (List.filter_sublist d)
  exact List.Sublist.nodup hsub h

theorem mem_of_dlookup {α : Type} {d : List (String × α)} {k : String} {v : α}
    (h : dlookup k d = some v) : (k, v) ∈ d := by
  induction d with
  | nil => simp [dlookup] at h
  | cons p rest ih =>
    simp only [dlookup] at h
    by_cases hpk : p.1 = k
    · rw [if_pos hpk] at h
      obtain rfl : p.2 = v := Option.some.inj h
      refine List.mem_cons.mpr (Or.inl ?_)
      cases p with
      | mk a b => simp only at hpk ⊢; rw [hpk]
    · rw [if_neg hpk] at h
      exact List.mem_cons.mpr (Or.inr (ih h))

theorem dlookup_of_mem_nodup {α : Type} {d : List (String × α)} {k : String}
    {v : α} (hnd : (dkeys d).Nodup) (hmem : (k, v) ∈ d) :
    dlookup k d = some v := by
  induction d with
  | nil => simp at hmem
  | cons p rest ih =>
    simp only [List.mem_cons] at hmem
    simp only [dkeys, List.map_cons, List.nodup_cons] at hnd
    cases hmem with
    | inl h =>
      subst h
      simp [dlookup]
    | inr h =>
      by_cases hpk : p.1 = k
      · exfalso
        apply hnd.1
        rw [hpk]
        exact List.mem_map_of_mem Prod.fst h
      · simp only [dlookup, if_neg hpk]
        exact ih hnd.2 h

/-- Strict disjunction on options (first result wins), used to describe
lookups in concatenations and fold-built dicts. -/
def oor {α : Type} : Option α → Option α → Option α
  | some v, _ => some v
  | none, y => y

theorem oor_some {α : Type} (v : α) (y : Option α) : oor (some v) y = some v := rfl

theorem oor_none {α : Type} (y : Option α) : oor none y = y := rfl

theorem oor_assoc {α : Type} (x y z : Option α) :
    oor (oor x y) z = oor x (oor y z) := by
  cases x <;> rfl

theorem dlookup_append {α : Type} (k : String) (a b : List (String × α)) :
    dlookup k (a ++ b) = oor (dlookup k a) (dlookup k b) := by
  induction a with
  | nil => rfl
  | cons p rest ih =>
    simp only [List.cons_append, dlookup]
    by_cases hpk : p.1 = k
    · simp [hpk, oor]
    · simp [hpk, ih]

/-- Sequential dict assignment of a list of key-value pairs. -/
def insertAll {α : Type} (d : List (String × α)) (l : List (String × α)) :
    List (String × α) :=
  l.foldl (fun acc p => dictSet acc p.1 p.2) d

theorem insertAll_nil {α : Type} (d : List (String × α)) :
    insertAll d [] = d := rfl

theorem insertAll_cons {α : Type} (d : List (String × α)) (p : String × α)
    (l : List (String × α)) :
    insertAll d (p :: l) = insertAll (dictSet d p.1 p.2) l := rfl

theorem insertAll_append {α : Type} (d : List (String × α))
    (a b : List (String × α)) :
    insertAll d (a ++ b) = insertAll (insertAll d a) b := by
  simp [insertAll, List.foldl_append]

theorem dlookup_insertAll {α : Type} (k : String) (l d : List (String × α)) :
    dlookup k (insertAll d l) = oor (dlookup k l.reverse) (dlookup k d) := by
  induction l generalizing d with
  | nil => simp [insertAll, dlookup, oor]
  | cons p rest ih =>
    rw [insertAll_cons, ih, List.reverse_cons, dlookup_append,
      dlookup_dictSet]
    by_cases hpk : p.1 = k
    · cases hrest : dlookup k rest.reverse with
      | none => simp [oor, dlookup, hpk]
      | some w => simp [oor, dlookup, hpk]
    · cases hrest : dlookup k rest.reverse with
      | none => simp [oor, dlookup, hpk]
      | some w => simp [oor, dlookup, hpk]

theorem nodup_dkeys_insertAll {α : Type} {d : List (String × α)}
    (l : List (String × α)) (h : (dkeys d).Nodup) :
    (dkeys (insertAll d l)).Nodup := by
  induction l generalizing d with
  | nil => exact h
  | cons p rest ih =>
    rw [insertAll_cons]
    exact ih (nodup_dkeys_dictSet p.1 p.2 h)

/-- The token-id/user-id pairs contributed to the global index by each user,
in iteration order. -/
def tokenPairs (users : List (String × User)) : List (String × String) :=
  users.flatMap fun p => p.2.refresh_tokens.map fun q => (q.1, p.1)

theorem build_eq_insertAll (users : List (String × User)) :
    build_token_id_to_user_id users = insertAll [] (tokenPairs users) := by
  suffices h : ∀ (idx : List (String × String)),
      users.foldl
        (fun idx p => p.2.refresh_tokens.foldl
          (fun idx2 q => dictSet idx2 q.1 p.1) idx) idx
        = insertAll idx (tokenPairs users) by
    exact h []
  induction users with
  | nil => intro idx; rfl
  | cons p rest ih =>
    intro idx
    simp only [List.foldl_cons, tokenPairs, List.flatMap_cons, insertAll_append]
    rw [← tokenPairs, ih]
    congr 1
    simp only [insertAll, List.foldl_map]
/-! ### The token-index invariant -/

/-- Structural well-formedness of the store's dicts: unique keys, each user
stored under its own id, unique token ids within each user. -/
def StoreWf (s : AuthStore) : Prop :=
  (dkeys s.users).Nodup ∧
  (∀ uid u, dlookup uid s.users = some u →
    u.id = uid ∧ (dkeys u.refresh_tokens).Nodup) ∧
  (dkeys s.token_id_to_user_id).Nodup

/-- Every token of every user is indexed under that user's id. -/
def IndexLeft (s : AuthStore) : Prop :=
  ∀ uid u, dlookup uid s.users = some u →
    ∀ tid, tid ∈ dkeys u.refresh_tokens →
      dlookup tid s.token_id_to_user_id = some uid

/-- Every index entry resolves to a token actually held by the referenced
user. -/
def IndexRight (s : AuthStore) : Prop :=
  ∀ tid uid, dlookup tid s.token_id_to_user_id = some uid →
    ∃ u, dlookup uid s.users = some u ∧ tid ∈ dkeys u.refresh_tokens

/-- The full index invariant. -/
def StoreInv (s : AuthStore) : Prop := StoreWf s ∧ IndexLeft s ∧ IndexRight s

/-- The property asserted by the claim: the index key set is exactly the
union of the users' refresh-token key sets, and every entry resolves to a
token of the referenced user. -/
def IndexMatches (s : AuthStore) : Prop :=
  (∀ tid, (dlookup tid s.token_id_to_user_id).isSome = true ↔
    ∃ p, p ∈ s.users ∧ tid ∈ dkeys p.2.refresh_tokens) ∧
  IndexRight s

theorem indexMatches_of_inv {s : AuthStore} (h : StoreInv s) :
    IndexMatches s := by
  obtain ⟨⟨hnd, husers, hidx⟩, hleft, hright⟩ := h
  refine ⟨fun tid => ⟨fun hs => ?_, fun hex => ?_⟩, hright⟩
  · obtain ⟨uid, huid⟩ := Option.isSome_iff_exists.mp hs
    obtain ⟨u, hu, htid⟩ := hright tid uid huid
    exact ⟨(uid, u), mem_of_dlookup hu, htid⟩
  · obtain ⟨p, hp, htid⟩ := hex
    have hu : dlookup p.1 s.users = some p.2 := by
      apply dlookup_of_mem_nodup hnd
      cases p with
      | mk a b => exact hp
    rw [hleft p.1 p.2 hu tid htid]
    rfl

/-! ### Destructuring the mutating operations -/

theorem create_user_spec {s s2 : AuthStore} {uid : String}
    {n : Option String} {io ia sg : Option Bool} {c : Option Credentials}
    {g : Option (List String)} {lo : Option Bool}
    (h : async_create_user s uid n io ia sg c g lo = some s2) :
    dlookup uid s.users = none ∧
      ∃ nu : User, nu.id = uid ∧ nu.refresh_tokens = [] ∧
        s2 = { s with users := dictSet s.users uid nu } := by
  unfold async_create_user at h
  split at h
  · exact absurd h (by simp)
  · split at h
    · exact absurd h (by simp)
    · rename_i hfresh
      refine ⟨?_, _, rfl, rfl, (Option.some.inj h).symm⟩
      cases hx : dlookup uid s.users with
      | none => rfl
      | some w => rw [hx] at hfresh; simp at hfresh

theorem create_refresh_token_spec {s s2 : AuthStore} {uid tid tok jk : String}
    {ca : Nat} {ci cn cicon : Option String} {tt : String} {ate : Nat}
    {ea : Option Nat} {cred : Option Credentials}
    (h : async_create_refresh_token s uid tid tok jk ca ci cn cicon tt ate ea
      cred = some s2) :
    ∃ u, dlookup uid s.users = some u ∧
      dlookup tid s.token_id_to_user_id = none ∧
      ∃ rt : RefreshToken,
        s2 = { s with
          users := dictSet s.users uid
            { u with refresh_tokens := dictSet u.refresh_tokens tid rt }
          token_id_to_user_id :=
            dictSet s.token_id_to_user_id tid u.id } := by
  unfold async_create_refresh_token at h
  split at h
  · exact absurd h (by simp)
  · rename_i u hu
    split at h
    · exact absurd h (by simp)
    · rename_i hfresh
      refine ⟨u, hu, ?_, _, (Option.some.inj h).symm⟩
      cases hx : dlookup tid s.token_id_to_user_id with
      | none => rfl
      | some w => rw [hx] at hfresh; simp at hfresh

theorem remove_user_spec {s s2 : AuthStore} {uid : String}
    (h : async_remove_user s uid = some s2) :
    ∃ u, dlookup uid s.users = some u ∧
      ∃ idx, delAllKeys s.token_id_to_user_id (dkeys u.refresh_tokens) =
          some idx ∧
        s2 = { s with users := dictDel s.users uid
                      token_id_to_user_id := idx } := by
  unfold async_remove_user at h
  split at h
  · exact absurd h (by simp)
  · rename_i u hu
    split at h
    · exact absurd h (by simp)
    · rename_i idx hidx
      exact ⟨u, hu, idx, hidx, (Option.some.inj h).symm⟩

theorem remove_refresh_token_spec {s s2 : AuthStore} {tid : String}
    (h : async_remove_refresh_token s tid = some s2) :
    s2 = s ∨
      ∃ uid u, dlookup tid s.token_id_to_user_id = some uid ∧ uid ≠ "" ∧
        dlookup uid s.users = some u ∧
        (dlookup tid u.refresh_tokens).isSome = true ∧
        s2 = { s with
          users := dictSet s.users uid
            { u with refresh_tokens := dictDel u.refresh_tokens tid }
          token_id_to_user_id := dictDel s.token_id_to_user_id tid } := by
  unfold async_remove_refresh_token at h
  split at h
  · exact Or.inl (Option.some.inj h).symm
  · rename_i uid hidx
    split at h
    · exact Or.inl (Option.some.inj h).symm
    · rename_i hempty
      split at h
      · exact absurd h (by simp)
      · rename_i u hu
        split at h
        · rename_i htid
          exact Or.inr ⟨uid, u, hidx, hempty, hu, htid,
            (Option.some.inj h).symm⟩
        · exact absurd h (by simp)

/-! ### delAllKeys lemmas -/

theorem delAllKeys_lookup {idx idx2 : List (String × String)}
    {ts : List String} (h : delAllKeys idx ts = some idx2) (t : String) :
    dlookup t idx2 = if t ∈ ts then none else dlookup t idx := by
  induction ts generalizing idx with
  | nil =>
    obtain rfl : idx = idx2 := Option.some.inj h
    simp
  | cons t1 rest ih =>
    unfold delAllKeys at h
    by_cases hp : (dlookup t1 idx).isSome
    · rw [if_pos hp] at h
      rw [ih h]
      by_cases ht : t ∈ rest
      · simp [ht, List.mem_cons]
      · by_cases ht1 : t = t1
        · subst ht1
          simp [ht, dlookup_dictDel]
        · have ht1s : ¬t1 = t := fun e => ht1 e.symm
          simp [ht, ht1, dlookup_dictDel, ht1s]
    · rw [if_neg hp] at h
      exact absurd h (by simp)

theorem delAllKeys_nodup {idx idx2 : List (String × String)}
    {ts : List String} (hnd : (dkeys idx).Nodup)
    (h : delAllKeys idx ts = some idx2) : (dkeys idx2).Nodup := by
  induction ts generalizing idx with
  | nil =>
    obtain rfl : idx = idx2 := Option.some.inj h
    exact hnd
  | cons t1 rest ih =>
    unfold delAllKeys at h
    by_cases hp : (dlookup t1 idx).isSome
    · rw [if_pos hp] at h
      exact ih (nodup_dkeys_dictDel t1 hnd) h
    · rw [if_neg hp] at h
      exact absurd h (by simp)

theorem delAllKeys_total {idx : List (String × String)} {ts : List String}
    (hnd : ts.Nodup) (hmem : ∀ t ∈ ts, (dlookup t idx).isSome = true) :
    ∃ idx2, delAllKeys idx ts = some idx2 := by
  induction ts generalizing idx with
  | nil => exact ⟨idx, rfl⟩
  | cons t1 rest ih =>
    have h1 : (dlookup t1 idx).isSome = true := hmem t1 (List.mem_cons_self t1 rest)
    rw [List.nodup_cons] at hnd
    have hsub : ∀ t ∈ rest, (dlookup t (dictDel idx t1)).isSome = true := by
      intro t ht
      rw [dlookup_dictDel]
      have hne : ¬t1 = t := fun e => hnd.1 (e ▸ ht)
      rw [if_neg hne]
      exact hmem t (List.mem_cons_of_mem t1 ht)
    obtain ⟨idx2, hidx2⟩ := ih hnd.2 hsub
    refine ⟨idx2, ?_⟩
    unfold delAllKeys
    rw [if_pos h1]
    exact hidx2
theorem mem_dkeys_dictSet_of_mem {α : Type} {d : List (String × α)}
    {k2 : String} (k : String) (v : α) (h : k2 ∈ dkeys d) :
    k2 ∈ dkeys (dictSet d k v) := by
  rw [dkeys_dictSet]
  split
  · exact h
  · exact List.mem_append_left _ h

theorem self_mem_dkeys_dictSet {α : Type} (d : List (String × α)) (k : String)
    (v : α) : k ∈ dkeys (dictSet d k v) := by
  rw [← dlookup_isSome_iff, dlookup_dictSet, if_pos rfl]
  rfl

/-! ### Invariant preservation -/

theorem inv_create_user {s s2 : AuthStore} {uid : String} {n : Option String}
    {io ia sg : Option Bool} {c : Option Credentials}
    {g : Option (List String)} {lo : Option Bool} (hinv : StoreInv s)
    (h : async_create_user s uid n io ia sg c g lo = some s2) :
    StoreInv s2 := by
  obtain ⟨⟨hnd, husers, hidxnd⟩, hleft, hright⟩ := hinv
  obtain ⟨hfresh, nu, hid, htok, rfl⟩ := create_user_spec h
  dsimp only [StoreInv, StoreWf, IndexLeft, IndexRight]
  refine ⟨⟨nodup_dkeys_dictSet uid nu hnd, ?_, hidxnd⟩, ?_, ?_⟩
  · intro uid2 u2 hu2
    rw [dlookup_dictSet] at hu2
    by_cases he : uid = uid2
    · rw [if_pos he] at hu2
      obtain rfl := Option.some.inj hu2
      subst he
      refine ⟨hid, ?_⟩
      rw [htok]
      exact List.nodup_nil
    · rw [if_neg he] at hu2
      exact husers uid2 u2 hu2
  · intro uid2 u2 hu2 tid htid
    rw [dlookup_dictSet] at hu2
    by_cases he : uid = uid2
    · rw [if_pos he] at hu2
      obtain rfl := Option.some.inj hu2
      rw [htok] at htid
      simp [dkeys] at htid
    · rw [if_neg he] at hu2
      exact hleft uid2 u2 hu2 tid htid
  · intro tid uid2 hidx
    obtain ⟨u2, hu2, htid⟩ := hright tid uid2 hidx
    refine ⟨u2, ?_, htid⟩
    rw [dlookup_dictSet]
    by_cases he : uid = uid2
    · subst he
      rw [hfresh] at hu2
      exact absurd hu2 (by simp)
    · rw [if_neg he]
      exact hu2

theorem inv_remove_user {s s2 : AuthStore} {uid : String} (hinv : StoreInv s)
    (h : async_remove_user s uid = some s2) : StoreInv s2 := by
  obtain ⟨⟨hnd, husers, hidxnd⟩, hleft, hright⟩ := hinv
  obtain ⟨u, hu, idx, hdel, rfl⟩ := remove_user_spec h
  have hulook := delAllKeys_lookup hdel
  dsimp only [StoreInv, StoreWf, IndexLeft, IndexRight]
  refine ⟨⟨nodup_dkeys_dictDel uid hnd, ?_, delAllKeys_nodup hidxnd hdel⟩,
    ?_, ?_⟩
  · intro uid2 u2 hu2
    rw [dlookup_dictDel] at hu2
    by_cases he : uid = uid2
    · rw [if_pos he] at hu2
      exact absurd hu2 (by simp)
    · rw [if_neg he] at hu2
      exact husers uid2 u2 hu2
  · intro uid2 u2 hu2 tid htid
    rw [dlookup_dictDel] at hu2
    by_cases he : uid = uid2
    · rw [if_pos he] at hu2
      exact absurd hu2 (by simp)
    · rw [if_neg he] at hu2
      rw [hulook tid]
      have hmem : tid ∉ dkeys u.refresh_tokens := by
        intro hmem
        have h1 := hleft uid u hu tid hmem
        have h2 := hleft uid2 u2 hu2 tid htid
        rw [h1] at h2
        exact he (Option.some.inj h2)
      rw [if_neg hmem]
      exact hleft uid2 u2 hu2 tid htid
  · intro tid uid2 hidx2
    rw [hulook tid] at hidx2
    by_cases hmem : tid ∈ dkeys u.refresh_tokens
    · rw [if_pos hmem] at hidx2
      exact absurd hidx2 (by simp)
    · rw [if_neg hmem] at hidx2
      obtain ⟨u2, hu2, htid⟩ := hright tid uid2 hidx2
      refine ⟨u2, ?_, htid⟩
      rw [dlookup_dictDel]
      by_cases he : uid = uid2
      · subst he
        rw [hu] at hu2
        obtain rfl := Option.some.inj hu2
        exact absurd htid hmem
      · rw [if_neg he]
        exact hu2

theorem inv_create_refresh_token {s s2 : AuthStore} {uid tid tok jk : String}
    {ca : Nat} {ci cn cicon : Option String} {tt : String} {ate : Nat}
    {ea : Option Nat} {cred : Option Credentials} (hinv : StoreInv s)
    (h : async_create_refresh_token s uid tid tok jk ca ci cn cicon tt ate ea
      cred = some s2) : StoreInv s2 := by
  obtain ⟨⟨hnd, husers, hidxnd⟩, hleft, hright⟩ := hinv
  obtain ⟨u, hu, hfresh, rt, rfl⟩ := create_refresh_token_spec h
  obtain ⟨huid, hutok⟩ := husers uid u hu
  have htidfresh : ∀ uid2 u2, dlookup uid2 s.users = some u2 →
      tid ∉ dkeys u2.refresh_tokens := by
    intro uid2 u2 hu2 hmem
    have hx := hleft uid2 u2 hu2 tid hmem
    rw [hfresh] at hx
    exact absurd hx (by simp)
  dsimp only [StoreInv, StoreWf, IndexLeft, IndexRight]
  refine ⟨⟨nodup_dkeys_dictSet _ _ hnd, ?_, nodup_dkeys_dictSet _ _ hidxnd⟩,
    ?_, ?_⟩
  · intro uid2 u2 hu2
    rw [dlookup_dictSet] at hu2
    by_cases he : uid = uid2
    · rw [if_pos he] at hu2
      obtain rfl := Option.some.inj hu2
      subst he
      exact ⟨huid, nodup_dkeys_dictSet _ _ hutok⟩
    · rw [if_neg he] at hu2
      exact husers uid2 u2 hu2
  · intro uid2 u2 hu2 tid2 htid2
    rw [dlookup_dictSet] at hu2
    rw [dlookup_dictSet]
    by_cases he : uid = uid2
    · rw [if_pos he] at hu2
      obtain rfl := Option.some.inj hu2
      subst he
      rw [dkeys_dictSet] at htid2
      have hnone : dlookup tid u.refresh_tokens = none := by
        rw [dlookup_none_iff]
        exact htidfresh uid u hu
      rw [hnone] at htid2
      simp only [Option.isSome_none, Bool.false_eq_true, if_false,
        List.mem_append, List.mem_singleton] at htid2
      cases htid2 with
      | inl hmem =>
        have hne : ¬tid = tid2 := fun e => htidfresh uid u hu (e ▸ hmem)
        rw [if_neg hne]
        exact hleft uid u hu tid2 hmem
      | inr heq =>
        subst heq
        rw [if_pos rfl, huid]
    · rw [if_neg he] at hu2
      have hmem2 := hleft uid2 u2 hu2 tid2 htid2
      have hne : ¬tid = tid2 := fun e => htidfresh uid2 u2 hu2 (e ▸ htid2)
      rw [if_neg hne]
      exact hmem2
  · intro tid2 uid2 hidx2
    rw [dlookup_dictSet] at hidx2
    by_cases he : tid = tid2
    · rw [if_pos he] at hidx2
      obtain rfl := Option.some.inj hidx2
      subst he
      refine ⟨{ u with refresh_tokens := dictSet u.refresh_tokens tid rt },
        ?_, ?_⟩
      · rw [dlookup_dictSet, huid, if_pos rfl]
      · exact self_mem_dkeys_dictSet _ _ _
    · rw [if_neg he] at hidx2
      obtain ⟨u2, hu2, htid2⟩ := hright tid2 uid2 hidx2
      by_cases heu : uid = uid2
      · subst heu
        rw [hu] at hu2
        obtain rfl := Option.some.inj hu2
        refine ⟨{ u with refresh_tokens := dictSet u.refresh_tokens tid rt },
          ?_, ?_⟩
        · rw [dlookup_dictSet, if_pos rfl]
        · exact mem_dkeys_dictSet_of_mem _ _ htid2
      · refine ⟨u2, ?_, htid2⟩
        rw [dlookup_dictSet, if_neg heu]
        exact hu2

theorem inv_remove_refresh_token {s s2 : AuthStore} {tid : String}
    (hinv : StoreInv s) (h : async_remove_refresh_token s tid = some s2) :
    StoreInv s2 := by
  cases remove_refresh_token_spec h with
  | inl he =>
    rw [he]
    exact hinv
  | inr hex =>
    obtain ⟨uid, u, hidx, hne, hu, htid, rfl⟩ := hex
    obtain ⟨⟨hnd, husers, hidxnd⟩, hleft, hright⟩ := hinv
    obtain ⟨huid, hutok⟩ := husers uid u hu
    dsimp only [StoreInv, StoreWf, IndexLeft, IndexRight]
    refine ⟨⟨nodup_dkeys_dictSet _ _ hnd, ?_, nodup_dkeys_dictDel _ hidxnd⟩,
      ?_, ?_⟩
    · intro uid2 u2 hu2
      rw [dlookup_dictSet] at hu2
      by_cases he : uid = uid2
      · rw [if_pos he] at hu2
        obtain rfl := Option.some.inj hu2
        subst he
        exact ⟨huid, nodup_dkeys_dictDel _ hutok⟩
      · rw [if_neg he] at hu2
        exact husers uid2 u2 hu2
    · intro uid2 u2 hu2 tid2 htid2
      rw [dlookup_dictSet] at hu2
      rw [dlookup_dictDel]
      by_cases he : uid = uid2
      · rw [if_pos he] at hu2
        obtain rfl := Option.some.inj hu2
        subst he
        have htid2x : tid2 ∈ dkeys u.refresh_tokens ∧ ¬tid = tid2 := by
          have hx := (dlookup_isSome_iff tid2 _).mpr htid2
          rw [dlookup_dictDel] at hx
          by_cases hq : tid = tid2
          · rw [if_pos hq] at hx
            simp at hx
          · rw [if_neg hq] at hx
            exact ⟨(dlookup_isSome_iff _ _).mp hx, hq⟩
        rw [if_neg htid2x.2]
        exact hleft uid u hu tid2 htid2x.1
      · rw [if_neg he] at hu2
        have hne2 : ¬tid = tid2 := by
          intro e
          subst e
          have hx := hleft uid2 u2 hu2 tid htid2
          rw [hidx] at hx
          exact he (Option.some.inj hx)
        rw [if_neg hne2]
        exact hleft uid2 u2 hu2 tid2 htid2
    · intro tid2 uid2 hidx2
      rw [dlookup_dictDel] at hidx2
      by_cases he : tid = tid2
      · rw [if_pos he] at hidx2
        exact absurd hidx2 (by simp)
      · rw [if_neg he] at hidx2
        obtain ⟨u2, hu2, htid2⟩ := hright tid2 uid2 hidx2
        by_cases heu : uid = uid2
        · subst heu
          rw [hu] at hu2
          obtain rfl := Option.some.inj hu2
          refine ⟨{ u with refresh_tokens := dictDel u.refresh_tokens tid },
            ?_, ?_⟩
          · rw [dlookup_dictSet, if_pos rfl]
          · rw [← dlookup_isSome_iff, dlookup_dictDel, if_neg he,
              dlookup_isSome_iff]
            exact htid2
        · refine ⟨u2, ?_, htid2⟩
          rw [dlookup_dictSet, if_neg heu]
          exact hu2

theorem inv_applyOp {s s2 : AuthStore} {op : StoreOp} (hinv : StoreInv s)
    (h : applyOp s op = some s2) : StoreInv s2 := by
  cases op with
  | createUser uid n io ia sg c g lo => exact inv_create_user hinv h
  | createRefreshToken uid tid tok jk ca ci cn cicon tt ate ea cred =>
    exact inv_create_refresh_token hinv h
  | removeRefreshToken tid => exact inv_remove_refresh_token hinv h
  | removeUser uid => exact inv_remove_user hinv h

theorem inv_runOps {s s2 : AuthStore} {ops : List StoreOp} (hinv : StoreInv s)
    (h : runOps s ops = some s2) : StoreInv s2 := by
  induction ops generalizing s with
  | nil =>
    obtain rfl := Option.some.inj h
    exact hinv
  | cons op rest ih =>
    unfold runOps at h
    cases hstep : applyOp s op with
    | none =>
      rw [hstep] at h
      exact absurd h (by simp)
    | some s3 =>
      rw [hstep] at h
      exact ih (inv_applyOp hinv hstep) h
/-! ### Well-formedness of loaded stores -/

/-- Well-formedness of a user dict: unique keys, each user stored under its
own id, unique token ids within each user. -/
def UsersWf (users : List (String × User)) : Prop :=
  (dkeys users).Nodup ∧
  ∀ uid u, dlookup uid users = some u →
    u.id = uid ∧ (dkeys u.refresh_tokens).Nodup

theorem usersWf_nil : UsersWf [] := by
  refine ⟨List.nodup_nil, ?_⟩
  intro uid u hu
  simp [dlookup] at hu

theorem usersWf_dictSet {users : List (String × User)} {uid : String}
    {u : User} (h : UsersWf users) (hid : u.id = uid)
    (htok : (dkeys u.refresh_tokens).Nodup) :
    UsersWf (dictSet users uid u) := by
  refine ⟨nodup_dkeys_dictSet _ _ h.1, ?_⟩
  intro uid2 u2 hu2
  rw [dlookup_dictSet] at hu2
  by_cases he : uid = uid2
  · rw [if_pos he] at hu2
    obtain rfl := Option.some.inj hu2
    subst he
    exact ⟨hid, htok⟩
  · rw [if_neg he] at hu2
    exact h.2 uid2 u2 hu2

theorem load_users_wf {records : List UserRecord}
    {groups : List (String × Group)} {migrate : Bool}
    {users users2 : List (String × User)} (hwf : UsersWf users)
    (h : load_users records groups migrate users = some users2) :
    UsersWf users2 := by
  induction records generalizing users with
  | nil =>
    obtain rfl := Option.some.inj h
    exact hwf
  | cons r rest ih =>
    unfold load_users at h
    split at h
    · exact absurd h (by simp)
    · refine ih (@usersWf_dictSet _ _ _ hwf ?_ ?_) h
      · rfl
      · exact List.nodup_nil

theorem load_credentials_wf {records : List CredRecord}
    {users users2 : List (String × User)}
    {creds creds2 : List (String × Credentials)} (hwf : UsersWf users)
    (h : load_credentials records users creds = some (users2, creds2)) :
    UsersWf users2 := by
  induction records generalizing users creds with
  | nil =>
    obtain ⟨rfl, rfl⟩ := Prod.mk.inj (Option.some.inj h)
    exact hwf
  | cons c rest ih =>
    unfold load_credentials at h
    split at h
    · exact absurd h (by simp)
    · rename_i u hu
      obtain ⟨hid, htok⟩ := hwf.2 c.user_id u hu
      refine ih (@usersWf_dictSet _ _ _ hwf ?_ ?_) h
      · exact hid
      · exact htok

theorem load_refresh_tokens_wf {records : List RefreshTokenRecord}
    {users users2 : List (String × User)}
    {creds : List (String × Credentials)} {log : List String}
    (hwf : UsersWf users)
    (h : load_refresh_tokens records users creds = some (users2, log)) :
    UsersWf users2 := by
  induction records generalizing users log with
  | nil =>
    obtain ⟨rfl, rfl⟩ := Prod.mk.inj (Option.some.inj h)
    exact hwf
  | cons r rest ih =>
    unfold load_refresh_tokens at h
    split at h
    · exact ih hwf h
    · split at h
      · cases hrec : load_refresh_tokens rest users creds with
        | none =>
          rw [hrec] at h
          exact absurd h (by simp)
        | some p =>
          obtain ⟨pu, pl⟩ := p
          rw [hrec] at h
          simp only [Option.map_some'] at h
          obtain ⟨rfl, rfl⟩ := Prod.mk.inj (Option.some.inj h)
          exact ih hwf hrec
      · split at h
        · cases hrec : load_refresh_tokens rest users creds with
          | none =>
            rw [hrec] at h
            exact absurd h (by simp)
          | some p =>
            obtain ⟨pu, pl⟩ := p
            rw [hrec] at h
            simp only [Option.map_some'] at h
            obtain ⟨rfl, rfl⟩ := Prod.mk.inj (Option.some.inj h)
            exact ih hwf hrec
        · split at h
          · exact absurd h (by simp)
          · rename_i u hu
            obtain ⟨hid, htok⟩ := hwf.2 r.user_id u hu
            refine ih ?_ h
            exact usersWf_dictSet hwf hid (nodup_dkeys_dictSet _ _ htok)

theorem mem_dkeys_iff {α : Type} {k : String} {d : List (String × α)} :
    k ∈ dkeys d ↔ ∃ q, q ∈ d ∧ q.1 = k := by
  simp [dkeys, List.mem_map]

theorem mem_tokenPairs {users : List (String × User)} {tid uid : String} :
    (tid, uid) ∈ tokenPairs users ↔
      ∃ p, p ∈ users ∧ p.1 = uid ∧ tid ∈ dkeys p.2.refresh_tokens := by
  unfold tokenPairs
  simp only [List.mem_flatMap, List.mem_map]
  constructor
  · rintro ⟨p, hp, q, hq, heq⟩
    obtain ⟨h1, h2⟩ := Prod.mk.injEq .. ▸ heq
    refine ⟨p, hp, h2, ?_⟩
    rw [← h1]
    exact mem_dkeys_iff.mpr ⟨q, hq, rfl⟩
  · rintro ⟨p, hp, hfst, htid⟩
    obtain ⟨q, hq, hqfst⟩ := mem_dkeys_iff.mp htid
    exact ⟨p, hp, q, hq, by rw [hqfst, hfst]⟩

/-- Global uniqueness of token ids across the users of a store: the
precondition added by the amended index-invariant claim (it holds for every
document the store itself serializes, where each token id appears once). -/
def TokensDisjoint (users : List (String × User)) : Prop :=
  ((tokenPairs users).map Prod.fst).Nodup

theorem build_lookup_mem {users : List (String × User)} {tid uid : String}
    (h : dlookup tid (build_token_id_to_user_id users) = some uid) :
    (tid, uid) ∈ tokenPairs users := by
  rw [build_eq_insertAll, dlookup_insertAll] at h
  cases hx : dlookup tid (tokenPairs users).reverse with
  | none =>
    rw [hx] at h
    simp [oor, dlookup] at h
  | some w =>
    rw [hx] at h
    rw [oor_some] at h
    obtain rfl := Option.some.inj h
    exact (List.mem_reverse).mp (mem_of_dlookup hx)

theorem loadInv_indexRight {users : List (String × User)}
    (hwf : UsersWf users) :
    ∀ tid uid, dlookup tid (build_token_id_to_user_id users) = some uid →
      ∃ u, dlookup uid users = some u ∧ tid ∈ dkeys u.refresh_tokens := by
  intro tid uid h
  obtain ⟨p, hp, hfst, htid⟩ := (mem_tokenPairs).mp (build_lookup_mem h)
  refine ⟨p.2, ?_, htid⟩
  rw [← hfst]
  apply dlookup_of_mem_nodup hwf.1
  cases p with
  | mk a b => exact hp

theorem loadInv_indexLeft {users : List (String × User)}
    (hdisj : TokensDisjoint users) :
    ∀ uid u, dlookup uid users = some u →
      ∀ tid, tid ∈ dkeys u.refresh_tokens →
        dlookup tid (build_token_id_to_user_id users) = some uid := by
  intro uid u hu tid htid
  have hmem : (tid, uid) ∈ tokenPairs users :=
    mem_tokenPairs.mpr ⟨(uid, u), mem_of_dlookup hu, rfl, htid⟩
  rw [build_eq_insertAll, dlookup_insertAll]
  have hnd : (dkeys (tokenPairs users).reverse).Nodup := by
    unfold dkeys
    rw [List.map_reverse]
    exact (List.nodup_reverse).mpr hdisj
  rw [dlookup_of_mem_nodup hnd (List.mem_reverse.mpr hmem)]
  rfl

theorem load_spec {d : PersistedDoc} {s : AuthStore}
    (h : async_load (some d) = some s) :
    ∃ users1 users2 creds users3 log,
      load_users d.users (loadedGroups d) (migrateFlag d) [] = some users1 ∧
      load_credentials d.credentials users1 [] = some (users2, creds) ∧
      load_refresh_tokens d.refresh_tokens users2 creds = some (users3, log) ∧
      s = { users := users3, groups := loadedGroups d
            token_id_to_user_id := build_token_id_to_user_id users3 } := by
  unfold async_load at h
  split at h
  · rename_i heq
    exact absurd heq (by simp)
  · rename_i d2 heq
    obtain rfl : d2 = d := Option.some.inj heq.symm
    split at h
    · exact absurd h (by simp)
    · rename_i users1 h1
      split at h
      · exact absurd h (by simp)
      · rename_i users2 creds h2
        split at h
        · exact absurd h (by simp)
        · rename_i users3 log h3
          exact ⟨users1, users2, creds, users3, log, h1, h2, h3,
            (Option.some.inj h).symm⟩

theorem load_inv {d : Option PersistedDoc} {s : AuthStore}
    (h : async_load d = some s) (hdisj : TokensDisjoint s.users) :
    StoreInv s := by
  cases d with
  | none =>
    obtain rfl := Option.some.inj h
    refine ⟨⟨List.nodup_nil, ?_, List.nodup_nil⟩, ?_, ?_⟩
    · intro uid u hu
      simp [set_defaults, dlookup] at hu
    · intro uid u hu
      simp [set_defaults, dlookup] at hu
    · intro tid uid hidx
      simp [set_defaults, build_token_id_to_user_id, dlookup] at hidx
  | some d =>
    obtain ⟨users1, users2, creds, users3, log, h1, h2, h3, rfl⟩ := load_spec h
    have hwf : UsersWf users3 :=
      load_refresh_tokens_wf (load_credentials_wf (load_users_wf usersWf_nil
        h1) h2) h3
    refine ⟨⟨hwf.1, hwf.2, ?_⟩, loadInv_indexLeft hdisj,
      loadInv_indexRight hwf⟩
    rw [build_eq_insertAll]
    exact nodup_dkeys_insertAll _ List.nodup_nil
/-- Loaded stores always satisfy structural well-formedness and the
entry-resolution direction of the index invariant (no token-id uniqueness
needed: the dict comprehension keeps, for each token id, the last contributing
user, which does hold that token). -/
theorem load_wf_right {d : Option PersistedDoc} {s : AuthStore}
    (h : async_load d = some s) :
    UsersWf s.users ∧
      (∀ tid uid, dlookup tid s.token_id_to_user_id = some uid →
        ∃ u, dlookup uid s.users = some u ∧ tid ∈ dkeys u.refresh_tokens) := by
  cases d with
  | none =>
    obtain rfl := Option.some.inj h
    refine ⟨usersWf_nil, ?_⟩
    intro tid uid hidx
    simp [set_defaults, build_token_id_to_user_id, dlookup] at hidx
  | some d =>
    obtain ⟨users1, users2, creds, users3, log, h1, h2, h3, rfl⟩ := load_spec h
    have hwf : UsersWf users3 :=
      load_refresh_tokens_wf (load_credentials_wf (load_users_wf usersWf_nil
        h1) h2) h3
    exact ⟨hwf, loadInv_indexRight hwf⟩

/-! ### Example data shared by witnesses and counterexamples -/

/-- Example user record builder. -/
def exUserRec (uid : String) (gids : List String) (sg : Bool) : UserRecord :=
  { id := uid, name := some ("name-" ++ uid), is_owner := false
    is_active := true, system_generated := sg, local_only := none
    group_ids := gids }

/-- Example refresh-token record builder (well formed). -/
def exTokenRec (tid uid : String) : RefreshTokenRecord :=
  { id := tid, user_id := uid, client_id := none, client_name := none
    client_icon := none, token_type := none, created_at := some (.iso 5)
    access_token_expiration := 1800, token := "secret-" ++ tid
    jwt_key := some ("jwt-" ++ tid), last_used_at := none
    last_used_ip := none, expire_at := none, credential_id := none
    version := none }

/-- Example credential record builder. -/
def exCredRec (cid uid dat : String) : CredRecord :=
  { id := cid, user_id := uid, auth_provider_type := "homeassistant"
    auth_provider_id := "default", data := dat }

/-- A well-formed document with two users and one refresh token. -/
def exDocBasic : PersistedDoc :=
  { users := [exUserRec ("u1") [] false, exUserRec ("u2") [] false]
    groups := []
    credentials := []
    refresh_tokens := [exTokenRec ("t1") ("u1")] }

/-- The store loaded from `exDocBasic`. -/
def exStoreBasic : AuthStore :=
  (async_load (some exDocBasic)).getD set_defaults

/-- An operation sequence exercising all four mutating operations. -/
def exOps : List StoreOp :=
  [ .createUser ("u3") (some "three") none none none none none none
  , .createRefreshToken ("u3") ("t2") ("sec2") ("jwt2") 7 none none none
      TOKEN_TYPE_NORMAL 1800 none none
  , .removeRefreshToken ("t1")
  , .removeUser ("u1") ]

/-- The store after running `exOps` from `exStoreBasic`. -/
def exStoreAfterOps : AuthStore :=
  (runOps exStoreBasic exOps).getD set_defaults

/-- A document in which two different users persist a refresh token with the
same token id (possible in a hand-edited or corrupted document, never in one
serialized by the store). -/
def exDocDupTokens : PersistedDoc :=
  { users := [exUserRec ("u1") [] false, exUserRec ("u2") [] false]
    groups := []
    credentials := []
    refresh_tokens := [exTokenRec ("t") ("u1"), exTokenRec ("t") ("u2")] }

/-- The store loaded from `exDocDupTokens`. -/
def exStoreDup : AuthStore :=
  (async_load (some exDocDupTokens)).getD set_defaults

/-- The store obtained from `exStoreDup` by removing user `u1`. -/
def exStoreDupAfter : AuthStore :=
  (runOps exStoreDup [.removeUser ("u1")]).getD set_defaults

/-! ### Claim C1 -/

/-- Claim C1 (amended: the starting loaded store's token ids must be globally
unique across users, as holds for every document the store itself
serialized): along every sequence of create-user / create-refresh-token /
remove-refresh-token / remove-user operations starting from such a loaded
store, the key set of `token_id_to_user_id` equals the exact union of the key
sets of all users' refresh-token maps, and every index entry resolves to a
token actually held by the referenced user. -/
theorem c1_token_index_invariant (d : Option PersistedDoc) (s0 : AuthStore)
    (hload : async_load d = some s0) (hdisj : TokensDisjoint s0.users)
    (ops : List StoreOp) (s : AuthStore) (hrun : runOps s0 ops = some s) :
    IndexMatches s :=
  indexMatches_of_inv (inv_runOps (load_inv hload hdisj) hrun)

/-- Witness for claim C1: the invariant theorem applied to a concrete loaded
store and a concrete sequence of all four operations. -/
theorem c1_token_index_invariant_witness : IndexMatches exStoreAfterOps :=
  c1_token_index_invariant (some exDocBasic) exStoreBasic (by rfl)
    (by unfold TokensDisjoint; decide) exOps exStoreAfterOps (by rfl)

/-- Counterexample for claim C1 as stated: loading a document in which two
users share a token id and then removing the first user leaves the second
user's token missing from the index, so the index is not the union of the
users' token key sets. -/
theorem c1_counterexample :
    async_load (some exDocDupTokens) = some exStoreDup ∧
    runOps exStoreDup [.removeUser ("u1")] = some exStoreDupAfter ∧
    ¬IndexMatches exStoreDupAfter := by
  refine ⟨by rfl, by rfl, fun hmatch => ?_⟩
  have h1 : (dlookup ("t") exStoreDupAfter.token_id_to_user_id).isSome =
      true :=
    (hmatch.1 ("t")).mpr (by decide)
  exact absurd h1 (by decide)
/-! ### Claim C6 -/

/-- A user value used as the `getD` default when reading example stores. -/
def emptyUser : User :=
  { id := "", name := none, groups := [], is_owner := false
    is_active := false, system_generated := false, local_only := false
    credentials := [], refresh_tokens := [] }

/-- Claim C6 (amended: the loaded store's token ids must be globally unique
across users, as holds for every store-serialized document): removing a user
U present in such a loaded store removes U from the user map, every token id
of U disappears from the global index, and every other user's tokens remain
indexed under that user. -/
theorem c6_remove_user_cascades (d : Option PersistedDoc) (s : AuthStore)
    (hload : async_load d = some s) (hdisj : TokensDisjoint s.users)
    (uid : String) (u : User) (hu : dlookup uid s.users = some u) :
    ∃ s2, async_remove_user s uid = some s2 ∧
      dlookup uid s2.users = none ∧
      (∀ tid, tid ∈ dkeys u.refresh_tokens →
        dlookup tid s2.token_id_to_user_id = none) ∧
      (∀ uid2 u2, uid2 ≠ uid → dlookup uid2 s.users = some u2 →
        dlookup uid2 s2.users = some u2 ∧
        ∀ tid, tid ∈ dkeys u2.refresh_tokens →
          dlookup tid s2.token_id_to_user_id = some uid2) := by
  obtain ⟨⟨hnd, husers, hidxnd⟩, hleft, hright⟩ := load_inv hload hdisj
  have htotal : ∀ t ∈ dkeys u.refresh_tokens,
      (dlookup t s.token_id_to_user_id).isSome = true := by
    intro t ht
    rw [hleft uid u hu t ht]
    rfl
  obtain ⟨idx, hdel⟩ := delAllKeys_total (husers uid u hu).2 htotal
  refine ⟨{ s with users := dictDel s.users uid, token_id_to_user_id := idx },
    ?_, ?_, ?_, ?_⟩
  · simp only [async_remove_user, hu, hdel]
  · dsimp only
    rw [dlookup_dictDel, if_pos rfl]
  · intro tid ht
    dsimp only
    rw [delAllKeys_lookup hdel, if_pos ht]
  · intro uid2 u2 hne hu2
    dsimp only
    refine ⟨?_, ?_⟩
    · rw [dlookup_dictDel, if_neg (fun e => hne e.symm)]
      exact hu2
    · intro tid ht
      rw [delAllKeys_lookup hdel]
      have hmem : tid ∉ dkeys u.refresh_tokens := by
        intro hmem
        have h1 := hleft uid u hu tid hmem
        have h2 := hleft uid2 u2 hu2 tid ht
        rw [h1] at h2
        exact hne (Option.some.inj h2).symm
      rw [if_neg hmem]
      exact hleft uid2 u2 hu2 tid ht

/-- The user `u1` of `exStoreBasic`. -/
def exU1Basic : User := (dlookup ("u1") exStoreBasic.users).getD emptyUser

/-- Witness for claim C6: the cascade theorem applied to the concrete loaded
store `exStoreBasic` and its user `u1`. -/
theorem c6_remove_user_cascades_witness :
    ∃ s2, async_remove_user exStoreBasic ("u1") = some s2 ∧
      dlookup ("u1") s2.users = none ∧
      (∀ tid, tid ∈ dkeys exU1Basic.refresh_tokens →
        dlookup tid s2.token_id_to_user_id = none) ∧
      (∀ uid2 u2, uid2 ≠ ("u1") →
        dlookup uid2 exStoreBasic.users = some u2 →
        dlookup uid2 s2.users = some u2 ∧
        ∀ tid, tid ∈ dkeys u2.refresh_tokens →
          dlookup tid s2.token_id_to_user_id = some uid2) :=
  c6_remove_user_cascades (some exDocBasic) exStoreBasic (by rfl)
    (by unfold TokensDisjoint; decide) ("u1") exU1Basic (by rfl)

/-- Counterexample for claim C6 as stated: in the loaded store of
`exDocDupTokens` both users hold a token with id `t`; removing `u1` succeeds
and deletes `t` from the index even though `u2` still holds it, so the
remaining user's token does not remain indexed. -/
theorem c6_counterexample :
    async_remove_user exStoreDup ("u1") = some exStoreDupAfter ∧
    dlookup ("u2") exStoreDupAfter.users =
      some ((dlookup ("u2") exStoreDup.users).getD emptyUser) ∧
    ("t") ∈ dkeys ((dlookup ("u2") exStoreDupAfter.users).getD
      emptyUser).refresh_tokens ∧
    dlookup ("t") exStoreDupAfter.token_id_to_user_id = none := by
  refine ⟨by rfl, by rfl, by decide, by rfl⟩

/-! ### Claim C7 -/

/-- Claim C7 (amended: an index entry whose user id is the empty string is
treated as absent by the source's truthiness guard, so "present" must be
strengthened to "present with a non-empty user id"): in a loaded store,
removing a refresh token whose id is not in the index leaves the whole store
unchanged, and removing one whose id maps to a non-empty user id deletes the
token from the owning user's map and from the index, leaving the groups and
all other index entries untouched. -/
theorem c7_remove_refresh_token (d : Option PersistedDoc) (s : AuthStore)
    (hload : async_load d = some s) :
    (∀ tid, dlookup tid s.token_id_to_user_id = none →
      async_remove_refresh_token s tid = some s) ∧
    (∀ tid uid, dlookup tid s.token_id_to_user_id = some uid → uid ≠ "" →
      ∃ s2 u, async_remove_refresh_token s tid = some s2 ∧
        dlookup uid s.users = some u ∧
        dlookup tid s2.token_id_to_user_id = none ∧
        dlookup uid s2.users =
          some { u with refresh_tokens := dictDel u.refresh_tokens tid } ∧
        s2.groups = s.groups ∧
        (∀ tid2, tid2 ≠ tid → dlookup tid2 s2.token_id_to_user_id =
          dlookup tid2 s.token_id_to_user_id)) := by
  obtain ⟨hwf, hright⟩ := load_wf_right hload
  constructor
  · intro tid hnone
    simp only [async_remove_refresh_token, hnone]
  · intro tid uid hidx hne
    obtain ⟨u, hu, htid⟩ := hright tid uid hidx
    have htidsome : (dlookup tid u.refresh_tokens).isSome = true :=
      (dlookup_isSome_iff tid u.refresh_tokens).mpr htid
    refine ⟨{ s with
        users := dictSet s.users uid
          { u with refresh_tokens := dictDel u.refresh_tokens tid }
        token_id_to_user_id := dictDel s.token_id_to_user_id tid },
      u, ?_, hu, ?_, ?_, rfl, ?_⟩
    · simp [async_remove_refresh_token, hidx, hne, hu, htidsome]
    · dsimp only
      rw [dlookup_dictDel, if_pos rfl]
    · dsimp only
      rw [dlookup_dictSet, if_pos rfl]
    · intro tid2 hne2
      dsimp only
      rw [dlookup_dictDel, if_neg (fun e => hne2 e.symm)]

/-- Witness for claim C7: the theorem applied to the concrete loaded store
`exStoreBasic`, whose index has no entry `nope` and maps `t1` to `u1`. -/
theorem c7_remove_refresh_token_witness :
    async_remove_refresh_token exStoreBasic ("nope") = some exStoreBasic ∧
    ∃ s2 u, async_remove_refresh_token exStoreBasic ("t1") = some s2 ∧
      dlookup ("u1") exStoreBasic.users = some u ∧
      dlookup ("t1") s2.token_id_to_user_id = none ∧
      dlookup ("u1") s2.users =
        some { u with refresh_tokens := dictDel u.refresh_tokens ("t1") } ∧
      s2.groups = exStoreBasic.groups ∧
      (∀ tid2, tid2 ≠ ("t1") → dlookup tid2 s2.token_id_to_user_id =
        dlookup tid2 exStoreBasic.token_id_to_user_id) :=
  ⟨(c7_remove_refresh_token (some exDocBasic) exStoreBasic (by rfl)).1
      ("nope") (by rfl),
    (c7_remove_refresh_token (some exDocBasic) exStoreBasic (by rfl)).2
      ("t1") ("u1") (by rfl) (by decide)⟩

/-- A document whose single user has the empty string as its id, owning one
refresh token. -/
def exDocEmptyUid : PersistedDoc :=
  { users := [exUserRec ("") [] false]
    groups := []
    credentials := []
    refresh_tokens := [exTokenRec ("t7") ("")] }

/-- The store loaded from `exDocEmptyUid`. -/
def exStoreEmptyUid : AuthStore :=
  (async_load (some exDocEmptyUid)).getD set_defaults

/-- Counterexample for claim C7 as stated: in the loaded store of
`exDocEmptyUid` the index entry for `t7` is present (mapping to the empty
user id), yet removal is a no-op — the store is returned unchanged and the
token is deleted from neither the user's map nor the index. -/
theorem c7_counterexample :
    async_load (some exDocEmptyUid) = some exStoreEmptyUid ∧
    dlookup ("t7") exStoreEmptyUid.token_id_to_user_id = some ("") ∧
    async_remove_refresh_token exStoreEmptyUid ("t7") =
      some exStoreEmptyUid := by
  exact ⟨by rfl, by rfl, by rfl⟩
/-! ### Claim C4 -/

/-- Invariant tying the `has_*_group` flags of `init_groups` to the presence
of the (forced) system groups in the accumulated dict. -/
def InitInvar (st : List (String × Group) × HasGroups) : Prop :=
  (st.2.has_admin_group = true →
    dlookup GROUP_ID_ADMIN st.1 = some system_admin_group) ∧
  (st.2.has_user_group = true →
    dlookup GROUP_ID_USER st.1 = some system_user_group) ∧
  (st.2.has_read_only_group = true →
    dlookup GROUP_ID_READ_ONLY st.1 = some system_read_only_group)

theorem initStep_invar (st : List (String × Group) × HasGroups)
    (g : GroupRecord) (h : InitInvar st) : InitInvar (initGroupsStep st g) := by
  obtain ⟨groups, has⟩ := st
  obtain ⟨ha, hu, hr⟩ := h
  by_cases h1 : g.id = GROUP_ID_ADMIN
  · simp only [InitInvar, initGroupsStep, get_group_policy, h1]
    simp [dlookup_dictSet, GROUP_ID_ADMIN, GROUP_ID_USER, GROUP_ID_READ_ONLY,
      system_admin_group, GROUP_NAME_ADMIN]
    refine ⟨fun hf => ?_, fun hf => ?_⟩
    · exact hu hf
    · exact hr hf
  · by_cases h2 : g.id = GROUP_ID_USER
    · simp only [InitInvar, initGroupsStep, get_group_policy, h1, h2]
      simp [dlookup_dictSet, GROUP_ID_ADMIN, GROUP_ID_USER,
        GROUP_ID_READ_ONLY, system_user_group, GROUP_NAME_USER]
      refine ⟨fun hf => ?_, fun hf => ?_⟩
      · exact ha hf
      · exact hr hf
    · by_cases h3 : g.id = GROUP_ID_READ_ONLY
      · simp only [InitInvar, initGroupsStep, get_group_policy, h1, h2, h3]
        simp [dlookup_dictSet, GROUP_ID_ADMIN, GROUP_ID_USER,
          GROUP_ID_READ_ONLY, system_read_only_group, GROUP_NAME_READ_ONLY]
        refine ⟨fun hf => ?_, fun hf => ?_⟩
        · exact ha hf
        · exact hu hf
      · simp only [InitInvar, initGroupsStep, get_group_policy, if_neg h1,
          if_neg h2, if_neg h3]
        split
        · exact ⟨fun hf => ha hf, fun hf => hu hf, fun hf => hr hf⟩
        · refine ⟨fun hf => ?_, fun hf => ?_, fun hf => ?_⟩
          · simp only [dlookup_dictSet, if_neg h1]
            exact ha hf
          · simp only [dlookup_dictSet, if_neg h2]
            exact hu hf
          · simp only [dlookup_dictSet, if_neg h3]
            exact hr hf

theorem init_groups_invar (records : List GroupRecord) :
    InitInvar (init_groups records) := by
  unfold init_groups
  suffices h : ∀ st, InitInvar st → InitInvar (records.foldl initGroupsStep st)
    by
    refine h _ ⟨?_, ?_, ?_⟩ <;> intro hf <;> simp at hf
  induction records with
  | nil => exact fun st h => h
  | cons g rest ih => exact fun st h => ih _ (initStep_invar st g h)

theorem loadedGroups_admin (d : PersistedDoc) :
    dlookup GROUP_ID_ADMIN (loadedGroups d) = some system_admin_group := by
  obtain ⟨ha, hu, hr⟩ := init_groups_invar d.groups
  unfold loadedGroups backfillSystemGroups backfillUser backfillReadOnly
    backfillAdmin
  split
  · split
    · split
      · exact ha (by assumption)
      · rw [dlookup_dictSet, if_pos rfl]
    · rw [dlookup_dictSet, if_neg (by decide)]
      split
      · exact ha (by assumption)
      · rw [dlookup_dictSet, if_pos rfl]
  · rw [dlookup_dictSet, if_neg (by decide)]
    split
    · split
      · exact ha (by assumption)
      · rw [dlookup_dictSet, if_pos rfl]
    · rw [dlookup_dictSet, if_neg (by decide)]
      split
      · exact ha (by assumption)
      · rw [dlookup_dictSet, if_pos rfl]

theorem loadedGroups_read_only (d : PersistedDoc) :
    dlookup GROUP_ID_READ_ONLY (loadedGroups d) =
      some system_read_only_group := by
  obtain ⟨ha, hu, hr⟩ := init_groups_invar d.groups
  unfold loadedGroups backfillSystemGroups backfillUser backfillReadOnly
    backfillAdmin
  split
  · split
    · split
      · exact hr (by assumption)
      · rw [dlookup_dictSet, if_neg (by decide)]
        exact hr (by assumption)
    · rw [dlookup_dictSet, if_pos rfl]
  · rw [dlookup_dictSet, if_neg (by decide)]
    split
    · split
      · exact hr (by assumption)
      · rw [dlookup_dictSet, if_neg (by decide)]
        exact hr (by assumption)
    · rw [dlookup_dictSet, if_pos rfl]

theorem loadedGroups_user (d : PersistedDoc) :
    dlookup GROUP_ID_USER (loadedGroups d) = some system_user_group := by
  obtain ⟨ha, hu, hr⟩ := init_groups_invar d.groups
  unfold loadedGroups backfillSystemGroups backfillUser backfillReadOnly
    backfillAdmin
  split
  · split
    · split
      · exact hu (by assumption)
      · rw [dlookup_dictSet, if_neg (by decide)]
        exact hu (by assumption)
    · rw [dlookup_dictSet, if_neg (by decide)]
      split
      · exact hu (by assumption)
      · rw [dlookup_dictSet, if_neg (by decide)]
        exact hu (by assumption)
  · rw [dlookup_dictSet, if_pos rfl]

/-- Claim C4: a persisted group record whose id equals the admin, user or
read-only reserved constant loads as the hardcoded system group — forced
name, forced policy and `system_generated = true` — regardless of the name or
policy values stored in the record. -/
theorem c4_system_groups_forced (d : PersistedDoc) (s : AuthStore)
    (r : GroupRecord) (hload : async_load (some d) = some s)
    (hmem : r ∈ d.groups) :
    (r.id = GROUP_ID_ADMIN → dlookup r.id s.groups = some system_admin_group)
    ∧ (r.id = GROUP_ID_USER → dlookup r.id s.groups = some system_user_group)
    ∧ (r.id = GROUP_ID_READ_ONLY →
        dlookup r.id s.groups = some system_read_only_group) := by
  obtain ⟨users1, users2, creds, users3, log, h1, h2, h3, rfl⟩ := load_spec
    hload
  refine ⟨fun he => ?_, fun he => ?_, fun he => ?_⟩ <;> rw [he] <;>
    dsimp only
  · exact loadedGroups_admin d
  · exact loadedGroups_user d
  · exact loadedGroups_read_only d

/-- A group record carrying bogus stored values under the admin id. -/
def exBogusAdminRec : GroupRecord :=
  { id := GROUP_ID_ADMIN, name := "Hackers", policy := some (.custom "evil") }

/-- A document persisting bogus records under all three system ids. -/
def exDocBogusSystem : PersistedDoc :=
  { users := []
    groups := [exBogusAdminRec,
      { id := GROUP_ID_USER, name := "U", policy := none },
      { id := GROUP_ID_READ_ONLY, name := "R", policy := some (.custom "x") }]
    credentials := []
    refresh_tokens := [] }

/-- The store loaded from `exDocBogusSystem`. -/
def exStoreBogusSystem : AuthStore :=
  (async_load (some exDocBogusSystem)).getD set_defaults

/-- Witness for claim C4: the forcing theorem applied to the concrete
document `exDocBogusSystem` whose system-id records carry bogus names and
policies. -/
theorem c4_system_groups_forced_witness :
    dlookup GROUP_ID_ADMIN exStoreBogusSystem.groups =
      some system_admin_group :=
  (c4_system_groups_forced exDocBogusSystem exStoreBogusSystem
    exBogusAdminRec (by rfl) (by decide)).1 rfl
/-! ### Claim C10 -/

/-- A document with a quarantined (policy-less non-system) group `g1`
referenced by the group-id list of user `u1`. -/
def exDocQuarantineRef : PersistedDoc :=
  { users := [exUserRec ("u1") [("g1")] false]
    groups := [{ id := "g1", name := "G One", policy := none }]
    credentials := []
    refresh_tokens := [] }

/-- Claim C10: loading a document in which a user's `group_ids` references a
quarantined (policy-less, skipped) group aborts with an error (the `KeyError`
of `groups[group_id]`, embedded as `none`), even though the group pass itself
skipped the quarantined record without error — it loaded no group and merely
recorded the quarantined id. -/
theorem c10_quarantined_membership_aborts :
    async_load (some exDocQuarantineRef) = none ∧
    (init_groups exDocQuarantineRef.groups).1 = [] ∧
    (init_groups exDocQuarantineRef.groups).2.group_without_policy =
      some ("g1") := by
  exact ⟨by rfl, by rfl, by rfl⟩

/-! ### Claim C5 -/

/-- Claim C5: during refresh-token loading, a record lacking `jwt_key` is
dropped silently (no log entry, no other effect), and a record whose
`created_at` is missing, not a string, or unparsable is dropped with a logged
error (its id is prepended to the log); in both cases the rest of the records
load exactly as if the dropped record were absent, so sibling records are
unaffected and the load does not abort because of the dropped record. -/
theorem c5_bad_token_records_dropped :
    (∀ (r : RefreshTokenRecord) (rest : List RefreshTokenRecord)
      (users : List (String × User)) (creds : List (String × Credentials)),
      r.jwt_key = none →
      load_refresh_tokens (r :: rest) users creds =
        load_refresh_tokens rest users creds) ∧
    (∀ (r : RefreshTokenRecord) (rest : List RefreshTokenRecord)
      (users : List (String × User)) (creds : List (String × Credentials)),
      r.jwt_key ≠ none → r.created_at.bind parse_datetime = none →
      load_refresh_tokens (r :: rest) users creds =
        (load_refresh_tokens rest users creds).map
          (fun p => (p.1, r.id :: p.2))) := by
  constructor
  · intro r rest users creds hjwt
    simp only [load_refresh_tokens]
    rw [if_pos hjwt]
  · intro r rest users creds hjwt hdate
    simp only [load_refresh_tokens]
    rw [if_neg hjwt]
    cases hca : r.created_at with
    | none => rfl
    | some str =>
      rw [hca] at hdate
      simp only [Option.some_bind] at hdate
      simp only [hdate]

/-- A token record lacking its `jwt_key`. -/
def exRecNoJwt : RefreshTokenRecord :=
  { exTokenRec ("tbad1") ("u1") with jwt_key := none }

/-- A token record whose `created_at` does not parse. -/
def exRecBadDate : RefreshTokenRecord :=
  { exTokenRec ("tbad2") ("u1") with
      created_at := some (.notADate "not-a-date") }

/-- Witness for claim C5: both parts applied at concrete bad records among a
well-formed sibling. -/
theorem c5_bad_token_records_dropped_witness :
    load_refresh_tokens [exRecNoJwt, exTokenRec ("ok") ("u1")]
        [("u1", emptyUser)] [] =
      load_refresh_tokens [exTokenRec ("ok") ("u1")] [("u1", emptyUser)] [] ∧
    load_refresh_tokens [exRecBadDate, exTokenRec ("ok") ("u1")]
        [("u1", emptyUser)] [] =
      (load_refresh_tokens [exTokenRec ("ok") ("u1")] [("u1", emptyUser)]
          []).map (fun p => (p.1, exRecBadDate.id :: p.2)) :=
  ⟨c5_bad_token_records_dropped.1 exRecNoJwt [exTokenRec ("ok") ("u1")]
      [("u1", emptyUser)] [] (by rfl),
    c5_bad_token_records_dropped.2 exRecBadDate [exTokenRec ("ok") ("u1")]
      [("u1", emptyUser)] [] (by decide) (by rfl)⟩

/-! ### Claim C8 -/

theorem resolveGroups_unknown {groups : List (String × Group)}
    {gids : List String} {gid : String} (hmem : gid ∈ gids)
    (hnone : dlookup gid groups = none) :
    resolveGroups groups gids = none := by
  induction gids with
  | nil => simp at hmem
  | cons g1 rest ih =>
    unfold resolveGroups
    cases List.mem_cons.mp hmem with
    | inl he =>
      subst he
      rw [hnone]
    | inr hmem2 =>
      cases hg : dlookup g1 groups with
      | none => rfl
      | some gg =>
        rw [ih hmem2]
        rfl

/-- Claim C8: an update-user call whose group-id list contains an id absent
from the live group set raises `ValueError` before assigning any attribute,
so the call fails with an error that carries the user exactly as it was —
groups, name, `is_active` and `local_only` all keep their prior values. -/
theorem c8_update_user_unknown_group (s : AuthStore) (u : User)
    (name : Option String) (is_active : Option Bool) (gids : List String)
    (local_only : Option Bool) (gid : String) (hmem : gid ∈ gids)
    (hunknown : dlookup gid s.groups = none) :
    async_update_user s u name is_active (some gids) local_only =
      .error u := by
  simp only [async_update_user]
  rw [resolveGroups_unknown hmem hunknown]

/-- Witness for claim C8: the theorem applied to the concrete loaded store
`exStoreBasic`, its user `u1` and an unknown group id. -/
theorem c8_update_user_unknown_group_witness :
    async_update_user exStoreBasic exU1Basic (some "New Name") (some false)
      (some [("no-such-group")]) (some true) = .error exU1Basic :=
  c8_update_user_unknown_group exStoreBasic exU1Basic (some "New Name")
    (some false) [("no-such-group")] (some true) ("no-such-group")
    (by decide) (by rfl)
/-! ### Claim C9 -/

theorem findTokenInner_count (secret : String)
    (acc : Option RefreshToken × Nat)
    (toks : List (String × RefreshToken)) :
    (findTokenInner secret acc toks).2 = acc.2 + toks.length := by
  induction toks generalizing acc with
  | nil => simp [findTokenInner]
  | cons q rest ih =>
    simp only [findTokenInner]
    split
    · rw [ih]
      simp only [List.length_cons]
      omega
    · rw [ih]
      simp only [List.length_cons]
      omega

theorem findTokenOuter_count (secret : String)
    (acc : Option RefreshToken × Nat) (users : List (String × User)) :
    (findTokenOuter secret acc users).2 =
      acc.2 + (users.map (fun p => p.2.refresh_tokens.length)).sum := by
  induction users generalizing acc with
  | nil => simp [findTokenOuter]
  | cons p rest ih =>
    simp only [findTokenOuter]
    rw [ih, findTokenInner_count]
    simp only [List.map_cons, List.sum_cons]
    omega

theorem findTokenInner_none (secret : String)
    (acc : Option RefreshToken × Nat)
    (toks : List (String × RefreshToken)) :
    (findTokenInner secret acc toks).1 = none ↔
      (acc.1 = none ∧ ∀ q ∈ toks, ¬q.2.token = secret) := by
  induction toks generalizing acc with
  | nil => simp [findTokenInner]
  | cons q rest ih =>
    simp only [findTokenInner]
    by_cases hc : compare_digest q.2.token secret = true
    · rw [if_pos hc, ih]
      constructor
      · rintro ⟨habs, _⟩
        exact absurd habs (by simp)
      · rintro ⟨hnone, hall⟩
        exact absurd (eq_of_beq hc) (hall q (List.mem_cons_self q rest))
    · rw [if_neg hc, ih]
      have hne : ¬q.2.token = secret := by
        intro e
        exact hc (by simp [compare_digest, e])
      constructor
      · rintro ⟨h1, h2⟩
        refine ⟨h1, ?_⟩
        intro q2 hq2
        cases List.mem_cons.mp hq2 with
        | inl he =>
          subst he
          exact hne
        | inr hmem => exact h2 q2 hmem
      · rintro ⟨h1, h2⟩
        exact ⟨h1, fun q2 hq2 => h2 q2 (List.mem_cons_of_mem q hq2)⟩

theorem findTokenOuter_none (secret : String)
    (acc : Option RefreshToken × Nat) (users : List (String × User)) :
    (findTokenOuter secret acc users).1 = none ↔
      (acc.1 = none ∧
        ∀ p ∈ users, ∀ q ∈ p.2.refresh_tokens, ¬q.2.token = secret) := by
  induction users generalizing acc with
  | nil => simp [findTokenOuter]
  | cons p rest ih =>
    simp only [findTokenOuter]
    rw [ih, findTokenInner_none]
    constructor
    · rintro ⟨⟨h1, h2⟩, h3⟩
      refine ⟨h1, ?_⟩
      intro p2 hp2
      cases List.mem_cons.mp hp2 with
      | inl he =>
        subst he
        exact h2
      | inr hmem => exact h3 p2 hmem
    · rintro ⟨h1, h2⟩
      exact ⟨⟨h1, h2 p (List.mem_cons_self p rest)⟩,
        fun p2 hp2 => h2 p2 (List.mem_cons_of_mem p hp2)⟩

theorem findTokenInner_some (secret : String)
    (acc : Option RefreshToken × Nat)
    (toks : List (String × RefreshToken)) (rt : RefreshToken)
    (h : (findTokenInner secret acc toks).1 = some rt) :
    acc.1 = some rt ∨ (rt.token = secret ∧ ∃ q ∈ toks, q.2 = rt) := by
  induction toks generalizing acc with
  | nil => exact Or.inl h
  | cons q rest ih =>
    simp only [findTokenInner] at h
    by_cases hc : compare_digest q.2.token secret = true
    · rw [if_pos hc] at h
      cases ih _ h with
      | inl hacc =>
        right
        obtain rfl := Option.some.inj hacc
        exact ⟨eq_of_beq hc, q, List.mem_cons_self q rest, rfl⟩
      | inr hrest =>
        obtain ⟨he, q2, hq2, hq2e⟩ := hrest
        exact Or.inr ⟨he, q2, List.mem_cons_of_mem q hq2, hq2e⟩
    · rw [if_neg hc] at h
      cases ih _ h with
      | inl hacc => exact Or.inl hacc
      | inr hrest =>
        obtain ⟨he, q2, hq2, hq2e⟩ := hrest
        exact Or.inr ⟨he, q2, List.mem_cons_of_mem q hq2, hq2e⟩

theorem findTokenOuter_some (secret : String)
    (acc : Option RefreshToken × Nat) (users : List (String × User))
    (rt : RefreshToken) (h : (findTokenOuter secret acc users).1 = some rt) :
    acc.1 = some rt ∨
      (rt.token = secret ∧
        ∃ p ∈ users, ∃ q ∈ p.2.refresh_tokens, q.2 = rt) := by
  induction users generalizing acc with
  | nil => exact Or.inl h
  | cons p rest ih =>
    simp only [findTokenOuter] at h
    cases ih _ h with
    | inl hacc =>
      cases findTokenInner_some secret acc p.2.refresh_tokens rt hacc with
      | inl h2 => exact Or.inl h2
      | inr h2 =>
        obtain ⟨he, q, hq, hqe⟩ := h2
        exact Or.inr ⟨he, p, List.mem_cons_self p rest, q, hq, hqe⟩
    | inr h2 =>
      obtain ⟨he, p2, hp2, rest2⟩ := h2
      exact Or.inr ⟨he, p2, List.mem_cons_of_mem p hp2, rest2⟩

/-- Claim C9: looking a refresh token up by secret compares every stored
token exactly once regardless of the secret and of earlier matches (the
invocation count of the constant-time `compare_digest` equals the total
number of stored tokens), returns nothing exactly when no stored token's
secret equals the argument, and any returned token is a stored token whose
secret equals the argument. -/
theorem c9_find_by_token_constant_time (s : AuthStore) (secret : String) :
    (async_get_refresh_token_by_token s secret).2 = totalTokenCount s ∧
    ((async_get_refresh_token_by_token s secret).1 = none ↔
      ∀ p ∈ s.users, ∀ q ∈ p.2.refresh_tokens, ¬q.2.token = secret) ∧
    (∀ rt, (async_get_refresh_token_by_token s secret).1 = some rt →
      rt.token = secret ∧
        ∃ p ∈ s.users, ∃ q ∈ p.2.refresh_tokens, q.2 = rt) := by
  refine ⟨?_, ?_, ?_⟩
  · unfold async_get_refresh_token_by_token totalTokenCount
    rw [findTokenOuter_count]
    simp
  · unfold async_get_refresh_token_by_token
    rw [findTokenOuter_none]
    simp
  · intro rt h
    unfold async_get_refresh_token_by_token at h
    cases findTokenOuter_some secret (none, 0) s.users rt h with
    | inl habs => exact absurd habs (by simp)
    | inr h2 => exact h2

/-- Witness for claim C9: the theorem applied at a concrete loaded store for
a matching and a non-matching secret. -/
theorem c9_find_by_token_constant_time_witness :
    (async_get_refresh_token_by_token exStoreBasic ("secret-t1")).2 =
      totalTokenCount exStoreBasic ∧
    (async_get_refresh_token_by_token exStoreBasic ("unknown")).1 = none :=
  ⟨(c9_find_by_token_constant_time exStoreBasic ("secret-t1")).1,
    (c9_find_by_token_constant_time exStoreBasic ("unknown")).2.1.mpr
      (by decide)⟩
/-! ### Claim C2 -/

theorem get_user_groups_migrate {r : UserRecord}
    {groups : List (String × Group)} {ug : List Group}
    (hadmin : dlookup GROUP_ID_ADMIN groups = some system_admin_group)
    (hsg : r.system_generated = false)
    (h : get_user_groups r groups true = some ug) :
    system_admin_group ∈ ug := by
  unfold get_user_groups at h
  cases hres : resolveUserGroupIds groups r.group_ids with
  | none =>
    rw [hres] at h
    exact absurd h (by simp)
  | some base =>
    rw [hres] at h
    simp only [] at h
    rw [if_pos ⟨hsg, trivial⟩] at h
    simp only [hadmin] at h
    obtain rfl := Option.some.inj h
    exact List.mem_append_right _ (List.mem_singleton.mpr rfl)

theorem load_users_migrate_prop {records : List UserRecord}
    {groups : List (String × Group)} {users users2 : List (String × User)}
    (hadmin : dlookup GROUP_ID_ADMIN groups = some system_admin_group)
    (hP : ∀ uid u, dlookup uid users = some u →
      u.system_generated = false → system_admin_group ∈ u.groups)
    (h : load_users records groups true users = some users2) :
    ∀ uid u, dlookup uid users2 = some u →
      u.system_generated = false → system_admin_group ∈ u.groups := by
  induction records generalizing users with
  | nil =>
    obtain rfl := Option.some.inj h
    exact hP
  | cons r rest ih =>
    unfold load_users at h
    split at h
    · exact absurd h (by simp)
    · rename_i ug hug
      refine ih ?_ h
      intro uid u hu
      rw [dlookup_dictSet] at hu
      by_cases he : r.id = uid
      · rw [if_pos he] at hu
        obtain rfl := Option.some.inj hu
        intro hsg
        exact get_user_groups_migrate hadmin hsg hug
      · rw [if_neg he] at hu
        exact hP uid u hu

theorem load_credentials_prop {P : User → Prop} {records : List CredRecord}
    {users users2 : List (String × User)}
    {creds creds2 : List (String × Credentials)}
    (hstab : ∀ u c, P u → P { u with credentials := u.credentials ++ [c] })
    (hP : ∀ uid u, dlookup uid users = some u → P u)
    (h : load_credentials records users creds = some (users2, creds2)) :
    ∀ uid u, dlookup uid users2 = some u → P u := by
  induction records generalizing users creds with
  | nil =>
    obtain ⟨rfl, rfl⟩ := Prod.mk.inj (Option.some.inj h)
    exact hP
  | cons c rest ih =>
    unfold load_credentials at h
    split at h
    · exact absurd h (by simp)
    · rename_i u hu
      refine ih ?_ h
      intro uid u2 hu2
      rw [dlookup_dictSet] at hu2
      by_cases he : c.user_id = uid
      · rw [if_pos he] at hu2
        obtain rfl := Option.some.inj hu2
        exact hstab u (credFromRecord c) (hP c.user_id u hu)
      · rw [if_neg he] at hu2
        exact hP uid u2 hu2

theorem load_refresh_tokens_prop {P : User → Prop}
    {records : List RefreshTokenRecord}
    {users users2 : List (String × User)}
    {creds : List (String × Credentials)} {log : List String}
    (hstab : ∀ u tid rt, P u →
      P { u with refresh_tokens := dictSet u.refresh_tokens tid rt })
    (hP : ∀ uid u, dlookup uid users = some u → P u)
    (h : load_refresh_tokens records users creds = some (users2, log)) :
    ∀ uid u, dlookup uid users2 = some u → P u := by
  induction records generalizing users log with
  | nil =>
    obtain ⟨rfl, rfl⟩ := Prod.mk.inj (Option.some.inj h)
    exact hP
  | cons r rest ih =>
    unfold load_refresh_tokens at h
    split at h
    · exact ih hP h
    · split at h
      · cases hrec : load_refresh_tokens rest users creds with
        | none =>
          rw [hrec] at h
          exact absurd h (by simp)
        | some p =>
          obtain ⟨pu, pl⟩ := p
          rw [hrec] at h
          simp only [Option.map_some'] at h
          obtain ⟨rfl, rfl⟩ := Prod.mk.inj (Option.some.inj h)
          exact ih hP hrec
      · split at h
        · cases hrec : load_refresh_tokens rest users creds with
          | none =>
            rw [hrec] at h
            exact absurd h (by simp)
          | some p =>
            obtain ⟨pu, pl⟩ := p
            rw [hrec] at h
            simp only [Option.map_some'] at h
            obtain ⟨rfl, rfl⟩ := Prod.mk.inj (Option.some.inj h)
            exact ih hP hrec
        · split at h
          · exact absurd h (by simp)
          · rename_i u hu
            refine ih ?_ h
            intro uid u2 hu2
            rw [dlookup_dictSet] at hu2
            by_cases he : r.user_id = uid
            · rw [if_pos he] at hu2
              obtain rfl := Option.some.inj hu2
              exact hstab u _ _ (hP r.user_id u hu)
            · rw [if_neg he] at hu2
              exact hP uid u2 hu2

/-- Claim C2 (amended: the migration requires the persisted document to
contain zero group records altogether — a record with a system group id also
counts as a group and disables it — which entails that no quarantined group
was found): loading a document with an empty group list grants every
non-system-generated user membership in the admin group, and for
system-generated user records the migration flag has no effect on the
resolved group list (no membership is appended). -/
theorem c2_admin_group_migration :
    (∀ (d : PersistedDoc) (s : AuthStore), d.groups = [] →
      async_load (some d) = some s →
      ∀ uid u, dlookup uid s.users = some u → u.system_generated = false →
        system_admin_group ∈ u.groups) ∧
    (∀ (r : UserRecord) (groups : List (String × Group)),
      r.system_generated = true →
      get_user_groups r groups true = get_user_groups r groups false) := by
  constructor
  · intro d s hempty hload uid u hu hsg
    obtain ⟨users1, users2, creds, users3, log, h1, h2, h3, rfl⟩ :=
      load_spec hload
    have hmf : migrateFlag d = true := by
      unfold migrateFlag
      rw [hempty]
      rfl
    rw [hmf] at h1
    have hp1 := load_users_migrate_prop (loadedGroups_admin d)
      (fun uid u hu => by simp [dlookup] at hu) h1
    have hp2 := load_credentials_prop (fun u c hc => hc) hp1 h2
    have hp3 := load_refresh_tokens_prop (fun u tid rt hc => hc) hp2 h3
    exact hp3 uid u hu hsg
  · intro r groups hsg
    unfold get_user_groups
    cases resolveUserGroupIds groups r.group_ids with
    | none => rfl
    | some base => simp [hsg]

/-- A document with no group records: the admin migration applies. -/
def exDocNoGroups : PersistedDoc :=
  { users := [exUserRec ("u1") [] false, exUserRec ("sys") [] true]
    groups := []
    credentials := []
    refresh_tokens := [] }

/-- The store loaded from `exDocNoGroups`. -/
def exStoreNoGroups : AuthStore :=
  (async_load (some exDocNoGroups)).getD set_defaults

/-- Witness for claim C2: the migration theorem applied to the concrete
document `exDocNoGroups` and its non-system user `u1`, plus the second part
at a concrete system-generated record. -/
theorem c2_admin_group_migration_witness :
    system_admin_group ∈
      ((dlookup ("u1") exStoreNoGroups.users).getD emptyUser).groups ∧
    get_user_groups (exUserRec ("sys") [] true) [] true =
      get_user_groups (exUserRec ("sys") [] true) [] false :=
  ⟨c2_admin_group_migration.1 exDocNoGroups exStoreNoGroups (by rfl) (by rfl)
      ("u1") ((dlookup ("u1") exStoreNoGroups.users).getD emptyUser) (by rfl)
      (by rfl),
    c2_admin_group_migration.2 (exUserRec ("sys") [] true) [] (by rfl)⟩

/-- A document whose only group record carries the admin id: it holds zero
non-system groups and no quarantined group. -/
def exDocAdminRecOnly : PersistedDoc :=
  { users := [exUserRec ("u1") [] false]
    groups := [{ id := GROUP_ID_ADMIN, name := "A", policy := none }]
    credentials := []
    refresh_tokens := [] }

/-- The store loaded from `exDocAdminRecOnly`. -/
def exStoreAdminRecOnly : AuthStore :=
  (async_load (some exDocAdminRecOnly)).getD set_defaults

/-- Counterexample for claim C2 as stated: `exDocAdminRecOnly` contains zero
non-system groups (its only record carries the reserved admin id, loading as
a system group) and no quarantined group, yet the pre-existing
non-system-generated user `u1` is not granted membership in the admin group,
because the code disables the migration whenever any group record loaded. -/
theorem c2_counterexample :
    async_load (some exDocAdminRecOnly) = some exStoreAdminRecOnly ∧
    (∀ r ∈ exDocAdminRecOnly.groups, r.id = GROUP_ID_ADMIN) ∧
    (init_groups exDocAdminRecOnly.groups).2.group_without_policy = none ∧
    dlookup ("u1") exStoreAdminRecOnly.users =
      some ((dlookup ("u1") exStoreAdminRecOnly.users).getD emptyUser) ∧
    ((dlookup ("u1") exStoreAdminRecOnly.users).getD
      emptyUser).system_generated = false ∧
    system_admin_group ∉
      ((dlookup ("u1") exStoreAdminRecOnly.users).getD emptyUser).groups := by
  exact ⟨by rfl, by decide, by rfl, by rfl, by rfl, by decide⟩
/-! ### Claim C3: lemmas for the serialize/reload round trip -/

theorem dictSet_fresh {α : Type} {d : List (String × α)} {k : String} (v : α)
    (h : dlookup k d = none) : dictSet d k v = d ++ [(k, v)] := by
  unfold dictSet
  rw [h]
  rfl

theorem map_eq_self_of_mem {α : Type} {l : List α} {f : α → α}
    (h : ∀ q ∈ l, f q = q) : l.map f = l := by
  induction l with
  | nil => rfl
  | cons p rest ih =>
    simp only [List.map_cons, h p (List.mem_cons_self p rest),
      ih (fun q hq => h q (List.mem_cons_of_mem p hq))]

theorem dictSet_present_map {α : Type} {d : List (String × α)} {k : String}
    {w : α} (v : α) (h : dlookup k d = some w) :
    dictSet d k v = d.map fun p => if p.1 = k then (k, v) else p := by
  unfold dictSet
  rw [h]
  simp only [Option.isSome_some, eq_self_iff_true, if_true]

theorem dictSet_self {α : Type} {d : List (String × α)} {k : String} {v : α}
    (hnd : (dkeys d).Nodup) (h : dlookup k d = some v) : dictSet d k v = d := by
  rw [dictSet_present_map v h]
  apply map_eq_self_of_mem
  intro q hq
  by_cases hqk : q.1 = k
  · have hlq : dlookup q.1 d = some q.2 := by
      apply dlookup_of_mem_nodup hnd
      cases q with
      | mk a b => exact hq
    rw [hqk] at hlq
    rw [hlq] at h
    obtain rfl := Option.some.inj h
    rw [if_pos hqk]
    cases q with
    | mk a b =>
      simp only at hqk ⊢
      rw [hqk]
  · rw [if_neg hqk]

theorem dictSet_dictSet {α : Type} (d : List (String × α)) (k : String)
    (x y : α) : dictSet (dictSet d k x) k y = dictSet d k y := by
  have h2 : dlookup k (dictSet d k x) = some x := by
    rw [dlookup_dictSet, if_pos rfl]
  cases hp : dlookup k d with
  | none =>
    rw [dictSet_present_map y h2, dictSet_fresh x hp, dictSet_fresh y hp,
      List.map_append]
    congr 1
    · apply map_eq_self_of_mem
      intro q hq
      have hqk : ¬q.1 = k := by
        intro e
        have hx : (dlookup k d).isSome = true :=
          (dlookup_isSome_iff k d).mpr (e ▸ List.mem_map_of_mem Prod.fst hq)
        rw [hp] at hx
        exact absurd hx (by simp)
      rw [if_neg hqk]
    · simp
  | some w =>
    rw [dictSet_present_map y h2, dictSet_present_map x hp,
      dictSet_present_map y hp, List.map_map]
    apply List.map_congr_left
    intro q hq
    by_cases hqk : q.1 = k
    · simp [Function.comp, hqk]
    · simp [Function.comp, hqk]

theorem dictSet_middle {α : Type} {done : List (String × α)} {k : String}
    (x y : α) (tail : List (String × α)) (hfresh : k ∉ dkeys done)
    (htail : k ∉ dkeys tail) :
    dictSet (done ++ (k, x) :: tail) k y = done ++ (k, y) :: tail := by
  have hlook : dlookup k (done ++ (k, x) :: tail) = some x := by
    rw [dlookup_append, (dlookup_none_iff k done).mpr hfresh, oor_none]
    simp [dlookup]
  rw [dictSet_present_map y hlook, List.map_append]
  congr 1
  · apply map_eq_self_of_mem
    intro q hq
    have hqk : ¬q.1 = k := by
      intro e
      exact hfresh (e ▸ List.mem_map_of_mem Prod.fst hq)
    rw [if_neg hqk]
  · simp only [List.map_cons, if_pos rfl]
    congr 1
    apply map_eq_self_of_mem
    intro q hq
    have hqk : ¬q.1 = k := by
      intro e
      exact htail (e ▸ List.mem_map_of_mem Prod.fst hq)
    rw [if_neg hqk]

theorem insertAll_fresh {α : Type} {l : List (String × α)}
    {acc : List (String × α)} (hnd : (dkeys l).Nodup)
    (hfresh : ∀ kk ∈ dkeys l, kk ∉ dkeys acc) :
    insertAll acc l = acc ++ l := by
  induction l generalizing acc with
  | nil => simp [insertAll]
  | cons p rest ih =>
    rw [insertAll_cons]
    simp only [dkeys, List.map_cons, List.nodup_cons] at hnd
    have hp : dlookup p.1 acc = none := by
      rw [dlookup_none_iff]
      exact hfresh p.1 (by simp [dkeys])
    rw [dictSet_fresh p.2 hp]
    have hfresh2 : ∀ kk ∈ dkeys rest, kk ∉ dkeys (acc ++ [(p.1, p.2)]) := by
      intro kk hkk
      simp only [dkeys, List.map_append, List.mem_append, List.map_cons,
        List.mem_singleton]
      rintro (habs | habs)
      · exact hfresh kk (by simp only [dkeys, List.map_cons, List.mem_cons]; exact Or.inr hkk) habs
      · simp at habs
        exact hnd.1 (habs ▸ hkk)
    have := ih hnd.2 hfresh2
    rw [show acc ++ [(p.1, p.2)] = acc ++ [p] by cases p; rfl] at this ⊢
    rw [this, List.append_assoc]
    rfl

theorem flatMap_congr_mem {α β : Type} {l : List α} {f g : α → List β}
    (h : ∀ p ∈ l, f p = g p) : l.flatMap f = l.flatMap g := by
  induction l with
  | nil => rfl
  | cons p rest ih =>
    simp only [List.flatMap_cons]
    rw [h p (List.mem_cons_self p rest),
      ih (fun q hq => h q (List.mem_cons_of_mem p hq))]

theorem mem_dictSet_prop {α : Type} {d : List (String × α)} {k : String}
    {v : α} {P : String × α → Prop} (hall : ∀ p ∈ d, P p) (hkv : P (k, v)) :
    ∀ p ∈ dictSet d k v, P p := by
  intro p hp
  unfold dictSet at hp
  by_cases hpres : (dlookup k d).isSome
  · rw [if_pos hpres] at hp
    obtain ⟨q, hq, hqe⟩ := List.mem_map.mp hp
    by_cases hqk : q.1 = k
    · rw [if_pos hqk] at hqe
      rw [← hqe]
      exact hkv
    · rw [if_neg hqk] at hqe
      rw [← hqe]
      exact hall q hq
  · rw [if_neg hpres] at hp
    cases List.mem_append.mp hp with
    | inl hmem => exact hall p hmem
    | inr hmem =>
      rw [List.mem_singleton.mp hmem]
      exact hkv
/-- All credentials across all users, in user-major iteration order. -/
def globalCreds (users : List (String × User)) : List Credentials :=
  users.flatMap fun p => p.2.credentials

/-- Entry-wise well-formedness of a loaded group entry: keyed by its own id,
exactly the hardcoded system group under a reserved id, and otherwise
non-system with a present policy. -/
def GroupEntryWf (p : String × Group) : Prop :=
  p.2.id = p.1 ∧
  (p.1 = GROUP_ID_ADMIN → p.2 = system_admin_group) ∧
  (p.1 = GROUP_ID_USER → p.2 = system_user_group) ∧
  (p.1 = GROUP_ID_READ_ONLY → p.2 = system_read_only_group) ∧
  (p.1 ≠ GROUP_ID_ADMIN → p.1 ≠ GROUP_ID_USER → p.1 ≠ GROUP_ID_READ_ONLY →
    p.2.system_generated = false ∧ ∃ pol, p.2.policy = some pol)

theorem groupEntryWf_admin : GroupEntryWf (GROUP_ID_ADMIN, system_admin_group) :=
  ⟨rfl, fun _ => rfl, fun he => absurd he (by decide),
    fun he => absurd he (by decide), fun hne _ _ => absurd rfl hne⟩

theorem groupEntryWf_user : GroupEntryWf (GROUP_ID_USER, system_user_group) :=
  ⟨rfl, fun he => absurd he (by decide), fun _ => rfl,
    fun he => absurd he (by decide),
    fun _ hne _ => absurd rfl hne⟩

theorem groupEntryWf_read_only :
    GroupEntryWf (GROUP_ID_READ_ONLY, system_read_only_group) :=
  ⟨rfl, fun he => absurd he (by decide), fun he => absurd he (by decide),
    fun _ => rfl, fun _ _ hne => absurd rfl hne⟩

theorem initStep_cases (st : List (String × Group) × HasGroups)
    (g : GroupRecord) :
    (initGroupsStep st g).1 = st.1 ∨
    ∃ G : Group, GroupEntryWf (g.id, G) ∧
      (initGroupsStep st g).1 = dictSet st.1 g.id G := by
  obtain ⟨groups, has⟩ := st
  by_cases h1 : g.id = GROUP_ID_ADMIN
  · right
    refine ⟨system_admin_group, h1 ▸ groupEntryWf_admin, ?_⟩
    have hgp : get_group_policy g =
        (some Policy.adminPolicy, GROUP_NAME_ADMIN, true) := by
      simp [get_group_policy, h1]
    simp only [initGroupsStep, hgp]
    rw [if_neg (by simp)]
    rw [h1]
    rfl
  · by_cases h2 : g.id = GROUP_ID_USER
    · right
      refine ⟨system_user_group, h2 ▸ groupEntryWf_user, ?_⟩
      have hgp : get_group_policy g =
          (some Policy.userPolicy, GROUP_NAME_USER, true) := by
        simp [get_group_policy, h1, h2,
          show ¬(GROUP_ID_USER = GROUP_ID_ADMIN) from by decide]
      simp only [initGroupsStep, hgp]
      rw [if_neg (by simp)]
      rw [h2]
      rfl
    · by_cases h3 : g.id = GROUP_ID_READ_ONLY
      · right
        refine ⟨system_read_only_group, h3 ▸ groupEntryWf_read_only, ?_⟩
        have hgp : get_group_policy g =
            (some Policy.readOnlyPolicy, GROUP_NAME_READ_ONLY, true) := by
          simp [get_group_policy, h1, h2, h3,
            show ¬(GROUP_ID_READ_ONLY = GROUP_ID_ADMIN) from by decide,
            show ¬(GROUP_ID_READ_ONLY = GROUP_ID_USER) from by decide]
        simp only [initGroupsStep, hgp]
        rw [if_neg (by simp)]
        rw [h3]
        rfl
      · have hgp : get_group_policy g = (g.policy, g.name, false) := by
          simp [get_group_policy, h1, h2, h3]
        simp only [initGroupsStep, hgp]
        cases hpol : g.policy with
        | none =>
          left
          rw [if_pos ⟨rfl, trivial⟩]
        | some pol =>
          right
          refine ⟨{ id := g.id, name := g.name, policy := some pol
                    system_generated := false },
            ⟨rfl, fun he => absurd he h1, fun he => absurd he h2,
              fun he => absurd he h3, fun _ _ _ => ⟨rfl, pol, rfl⟩⟩, ?_⟩
          rw [if_neg (by simp)]

theorem initStep_entryWf {st : List (String × Group) × HasGroups}
    {g : GroupRecord} (hall : ∀ p ∈ st.1, GroupEntryWf p) :
    ∀ p ∈ (initGroupsStep st g).1, GroupEntryWf p := by
  cases initStep_cases st g with
  | inl he =>
    rw [he]
    exact hall
  | inr hex =>
    obtain ⟨G, hwf, he⟩ := hex
    rw [he]
    exact mem_dictSet_prop hall hwf

theorem init_groups_entryWf (records : List GroupRecord) :
    ∀ p ∈ (init_groups records).1, GroupEntryWf p := by
  unfold init_groups
  suffices h : ∀ st, (∀ p ∈ (st : List (String × Group) × HasGroups).1,
      GroupEntryWf p) →
      ∀ p ∈ (records.foldl initGroupsStep st).1, GroupEntryWf p by
    exact h _ (by intro p hp; simp at hp)
  induction records with
  | nil => exact fun st h => h
  | cons g rest ih => exact fun st h => ih _ (initStep_entryWf h)

theorem initStep_nodup {st : List (String × Group) × HasGroups}
    {g : GroupRecord} (hnd : (dkeys st.1).Nodup) :
    (dkeys (initGroupsStep st g).1).Nodup := by
  cases initStep_cases st g with
  | inl he =>
    rw [he]
    exact hnd
  | inr hex =>
    obtain ⟨G, hwf, he⟩ := hex
    rw [he]
    exact nodup_dkeys_dictSet _ _ hnd

theorem init_groups_nodup (records : List GroupRecord) :
    (dkeys (init_groups records).1).Nodup := by
  unfold init_groups
  suffices h : ∀ st, (dkeys (st : List (String × Group) × HasGroups).1).Nodup →
      (dkeys (records.foldl initGroupsStep st).1).Nodup by
    exact h _ List.nodup_nil
  induction records with
  | nil => exact fun st h => h
  | cons g rest ih => exact fun st h => ih _ (initStep_nodup h)

theorem backfill_entryWf {groups : List (String × Group)} {has : HasGroups}
    (hall : ∀ p ∈ groups, GroupEntryWf p) :
    ∀ p ∈ backfillSystemGroups groups has, GroupEntryWf p := by
  unfold backfillSystemGroups backfillUser backfillReadOnly backfillAdmin
  split
  · split
    · split
      · exact hall
      · exact mem_dictSet_prop hall groupEntryWf_admin
    · split
      · exact mem_dictSet_prop hall groupEntryWf_read_only
      · exact mem_dictSet_prop (mem_dictSet_prop hall groupEntryWf_admin)
          groupEntryWf_read_only
  · split
    · split
      · exact mem_dictSet_prop hall groupEntryWf_user
      · exact mem_dictSet_prop (mem_dictSet_prop hall groupEntryWf_admin)
          groupEntryWf_user
    · split
      · exact mem_dictSet_prop (mem_dictSet_prop hall groupEntryWf_read_only)
          groupEntryWf_user
      · exact mem_dictSet_prop (mem_dictSet_prop (mem_dictSet_prop hall
          groupEntryWf_admin) groupEntryWf_read_only) groupEntryWf_user

theorem backfill_nodup {groups : List (String × Group)} {has : HasGroups}
    (hnd : (dkeys groups).Nodup) :
    (dkeys (backfillSystemGroups groups has)).Nodup := by
  unfold backfillSystemGroups backfillUser backfillReadOnly backfillAdmin
  split <;> split <;> split <;>
    first
      | exact hnd
      | exact nodup_dkeys_dictSet _ _ hnd
      | exact nodup_dkeys_dictSet _ _ (nodup_dkeys_dictSet _ _ hnd)
      | exact nodup_dkeys_dictSet _ _
          (nodup_dkeys_dictSet _ _ (nodup_dkeys_dictSet _ _ hnd))

theorem loadedGroups_entryWf (d : PersistedDoc) :
    ∀ p ∈ loadedGroups d, GroupEntryWf p :=
  backfill_entryWf (init_groups_entryWf d.groups)

theorem loadedGroups_nodup (d : PersistedDoc) :
    (dkeys (loadedGroups d)).Nodup :=
  backfill_nodup (init_groups_nodup d.groups)
/-- Flag update applied by `initGroupsStep` for a loaded record keyed `k`. -/
def initFlagStep (has : HasGroups) (k : String) : HasGroups :=
  if k = GROUP_ID_ADMIN then { has with has_admin_group := true }
  else if k = GROUP_ID_USER then { has with has_user_group := true }
  else if k = GROUP_ID_READ_ONLY then { has with has_read_only_group := true }
  else has

theorem initFlagStep_gwp (has : HasGroups) (k : String) :
    (initFlagStep has k).group_without_policy = has.group_without_policy := by
  unfold initFlagStep
  split
  · rfl
  · split
    · rfl
    · split
      · rfl
      · rfl

theorem initFlagStep_admin_mono {has : HasGroups} (k : String)
    (h : has.has_admin_group = true) :
    (initFlagStep has k).has_admin_group = true := by
  unfold initFlagStep
  split
  · rfl
  · split
    · exact h
    · split
      · exact h
      · exact h

theorem initFlagStep_user_mono {has : HasGroups} (k : String)
    (h : has.has_user_group = true) :
    (initFlagStep has k).has_user_group = true := by
  unfold initFlagStep
  split
  · exact h
  · split
    · rfl
    · split
      · exact h
      · exact h

theorem initFlagStep_ro_mono {has : HasGroups} (k : String)
    (h : has.has_read_only_group = true) :
    (initFlagStep has k).has_read_only_group = true := by
  unfold initFlagStep
  split
  · exact h
  · split
    · exact h
    · split
      · rfl
      · exact h

theorem initFlagStep_admin_self (has : HasGroups) :
    (initFlagStep has GROUP_ID_ADMIN).has_admin_group = true := by
  unfold initFlagStep
  rw [if_pos rfl]

theorem initFlagStep_user_self (has : HasGroups) :
    (initFlagStep has GROUP_ID_USER).has_user_group = true := by
  unfold initFlagStep
  rw [if_neg (by decide), if_pos rfl]

theorem initFlagStep_ro_self (has : HasGroups) :
    (initFlagStep has GROUP_ID_READ_ONLY).has_read_only_group = true := by
  unfold initFlagStep
  rw [if_neg (by decide), if_neg (by decide), if_pos rfl]

theorem initStep_ser {p : String × Group} (hwf : GroupEntryWf p)
    (acc : List (String × Group)) (has : HasGroups) :
    initGroupsStep (acc, has) (serGroupRec p.2) =
      (dictSet acc p.1 p.2, initFlagStep has p.1) := by
  obtain ⟨hid, hadm, husr, hro, hns⟩ := hwf
  have hsid : (serGroupRec p.2).id = p.1 := hid
  by_cases h1 : p.1 = GROUP_ID_ADMIN
  · have hpe := hadm h1
    have hgp : get_group_policy (serGroupRec p.2) =
        (some Policy.adminPolicy, GROUP_NAME_ADMIN, true) := by
      simp [get_group_policy, hsid, hid, h1]
    simp only [initGroupsStep, hgp]
    rw [if_neg (by simp)]
    rw [hsid, initFlagStep, h1, hpe]
    rw [if_pos rfl]
    rfl
  · by_cases h2 : p.1 = GROUP_ID_USER
    · have hpe := husr h2
      have hgp : get_group_policy (serGroupRec p.2) =
          (some Policy.userPolicy, GROUP_NAME_USER, true) := by
        simp [get_group_policy, hsid, hid, h2,
          show ¬(GROUP_ID_USER = GROUP_ID_ADMIN) from by decide]
      simp only [initGroupsStep, hgp]
      rw [if_neg (by simp)]
      rw [hsid, initFlagStep, h2, hpe]
      rw [if_neg (by decide), if_pos rfl]
      rfl
    · by_cases h3 : p.1 = GROUP_ID_READ_ONLY
      · have hpe := hro h3
        have hgp : get_group_policy (serGroupRec p.2) =
            (some Policy.readOnlyPolicy, GROUP_NAME_READ_ONLY, true) := by
          simp [get_group_policy, hsid, hid, h3,
            show ¬(GROUP_ID_READ_ONLY = GROUP_ID_ADMIN) from by decide,
            show ¬(GROUP_ID_READ_ONLY = GROUP_ID_USER) from by decide]
        simp only [initGroupsStep, hgp]
        rw [if_neg (by simp)]
        rw [hsid, initFlagStep, h3, hpe]
        rw [if_neg (by decide), if_neg (by decide), if_pos rfl]
        rfl
      · obtain ⟨hsys, pol, hpol⟩ := hns h1 h2 h3
        have hgp : get_group_policy (serGroupRec p.2) =
            (some pol, p.2.name, false) := by
          simp [get_group_policy, serGroupRec, hsid, hid, h1, h2, h3, hsys, hpol]
        simp only [initGroupsStep, hgp]
        rw [if_neg (by simp)]
        rw [hsid, initFlagStep]
        rw [if_neg h1, if_neg h2, if_neg h3]
        have hpe : { id := p.1, name := p.2.name, policy := some pol
                     system_generated := false : Group } = p.2 := by
          cases hp2 : p.2 with
          | mk a b c dd =>
            rw [hp2] at hid hpol hsys
            simp only at hid hpol hsys ⊢
            rw [hid, hpol, hsys]
        rw [hpe]

theorem init_rebuild (gl : List (String × Group)) :
    ∀ (acc : List (String × Group)) (has : HasGroups),
    (∀ p ∈ gl, GroupEntryWf p) → (dkeys (acc ++ gl)).Nodup →
    ∃ has2 : HasGroups,
      List.foldl initGroupsStep (acc, has) (gl.map fun p => serGroupRec p.2) =
        (acc ++ gl, has2) ∧
      has2.group_without_policy = has.group_without_policy ∧
      (has.has_admin_group = true ∨ GROUP_ID_ADMIN ∈ dkeys gl →
        has2.has_admin_group = true) ∧
      (has.has_user_group = true ∨ GROUP_ID_USER ∈ dkeys gl →
        has2.has_user_group = true) ∧
      (has.has_read_only_group = true ∨ GROUP_ID_READ_ONLY ∈ dkeys gl →
        has2.has_read_only_group = true) := by
  induction gl with
  | nil =>
    intro acc has hwf hnd
    refine ⟨has, by simp, rfl, ?_, ?_, ?_⟩
    · rintro (hf | hf)
      · exact hf
      · simp [dkeys] at hf
    · rintro (hf | hf)
      · exact hf
      · simp [dkeys] at hf
    · rintro (hf | hf)
      · exact hf
      · simp [dkeys] at hf
  | cons p rest ih =>
    intro acc has hwf hnd
    have hwfp := hwf p (List.mem_cons_self p rest)
    have hfresh : dlookup p.1 acc = none := by
      rw [dlookup_none_iff]
      intro hmem
      have hx : ¬(dkeys acc).Disjoint (dkeys (p :: rest)) := by
        intro hdisj
        exact hdisj hmem (by simp [dkeys])
      rw [show dkeys (acc ++ p :: rest) = dkeys acc ++ dkeys (p :: rest) by
        simp [dkeys]] at hnd
      exact hx (List.nodup_append.mp hnd).2.2
    simp only [List.map_cons, List.foldl_cons]
    rw [initStep_ser hwfp, dictSet_fresh p.2 hfresh]
    have hnd2 : (dkeys ((acc ++ [(p.1, p.2)]) ++ rest)).Nodup := by
      rw [show (acc ++ [(p.1, p.2)]) ++ rest = acc ++ ((p.1, p.2) :: rest) by
        simp]
      exact hnd
    obtain ⟨has2, heq, hgwp, hadm, husr, hro⟩ :=
      ih (acc ++ [(p.1, p.2)]) (initFlagStep has p.1)
        (fun q hq => hwf q (List.mem_cons_of_mem p hq)) hnd2
    refine ⟨has2, ?_, ?_, ?_, ?_, ?_⟩
    · rw [heq]
      rw [show (acc ++ [(p.1, p.2)]) ++ rest = acc ++ ((p.1, p.2) :: rest) by
        simp]
    · rw [hgwp, initFlagStep_gwp]
    · rintro (hf | hf)
      · exact hadm (Or.inl (initFlagStep_admin_mono p.1 hf))
      · simp only [dkeys, List.map_cons, List.mem_cons] at hf
        cases hf with
        | inl hf =>
          refine hadm (Or.inl ?_)
          rw [← hf]
          exact initFlagStep_admin_self has
        | inr hf => exact hadm (Or.inr hf)
    · rintro (hf | hf)
      · exact husr (Or.inl (initFlagStep_user_mono p.1 hf))
      · simp only [dkeys, List.map_cons, List.mem_cons] at hf
        cases hf with
        | inl hf =>
          refine husr (Or.inl ?_)
          rw [← hf]
          exact initFlagStep_user_self has
        | inr hf => exact husr (Or.inr hf)
    · rintro (hf | hf)
      · exact hro (Or.inl (initFlagStep_ro_mono p.1 hf))
      · simp only [dkeys, List.map_cons, List.mem_cons] at hf
        cases hf with
        | inl hf =>
          refine hro (Or.inl ?_)
          rw [← hf]
          exact initFlagStep_ro_self has
        | inr hf => exact hro (Or.inr hf)
theorem backfill_all_true {gs : List (String × Group)} {has : HasGroups}
    (ha : has.has_admin_group = true) (hu : has.has_user_group = true)
    (hr : has.has_read_only_group = true) :
    backfillSystemGroups gs has = gs := by
  unfold backfillSystemGroups backfillUser backfillReadOnly backfillAdmin
  rw [if_pos ha, if_pos hr, if_pos hu]

theorem reload_groups {gl : List (String × Group)}
    (hwf : ∀ p ∈ gl, GroupEntryWf p) (hnd : (dkeys gl).Nodup)
    (hadm : GROUP_ID_ADMIN ∈ dkeys gl) (husr : GROUP_ID_USER ∈ dkeys gl)
    (hro : GROUP_ID_READ_ONLY ∈ dkeys gl) :
    ∃ has2, init_groups (gl.map fun p => serGroupRec p.2) = (gl, has2) ∧
      has2.group_without_policy = none ∧ has2.has_admin_group = true ∧
      has2.has_user_group = true ∧ has2.has_read_only_group = true := by
  obtain ⟨has2, heq, hgwp, ha, hu, hr⟩ := init_rebuild gl []
    { has_admin_group := false, has_user_group := false
      has_read_only_group := false, group_without_policy := none }
    hwf (by simpa using hnd)
  refine ⟨has2, ?_, hgwp, ha (Or.inr hadm), hu (Or.inr husr),
    hr (Or.inr hro)⟩
  unfold init_groups
  rw [heq]
  simp

/-- Reloading the serialized groups of a well-formed loaded store yields
exactly the same group dict, with the migration disabled. -/
theorem groups_roundtrip {s : AuthStore}
    (hwf : ∀ p ∈ s.groups, GroupEntryWf p) (hnd : (dkeys s.groups).Nodup)
    (hadm : GROUP_ID_ADMIN ∈ dkeys s.groups)
    (husr : GROUP_ID_USER ∈ dkeys s.groups)
    (hro : GROUP_ID_READ_ONLY ∈ dkeys s.groups) :
    loadedGroups (data_to_save s) = s.groups ∧
      migrateFlag (data_to_save s) = false := by
  obtain ⟨has2, heq, hgwp, ha, hu, hr⟩ := reload_groups hwf hnd hadm husr hro
  have hrecords : (data_to_save s).groups =
      s.groups.map fun p => serGroupRec p.2 := rfl
  constructor
  · unfold loadedGroups
    rw [hrecords, heq]
    exact backfill_all_true ha hu hr
  · unfold migrateFlag
    rw [hrecords, heq]
    cases hgl : s.groups with
    | nil =>
      rw [hgl] at hadm
      simp [dkeys] at hadm
    | cons p rest => rfl
/-- Projection dropping a user entry's credentials and tokens (the state in
which `load_users` reconstructs it). -/
def stripAll (p : String × User) : String × User :=
  (p.1, { p.2 with credentials := [], refresh_tokens := [] })

/-- Projection dropping a user entry's tokens (the state after
`load_credentials`). -/
def stripTok (p : String × User) : String × User :=
  (p.1, { p.2 with refresh_tokens := [] })

theorem resolve_groups_self {groups : List (String × Group)} (gs : List Group)
    (h : ∀ g ∈ gs, dlookup g.id groups = some g ∧ g.id ≠ GROUP_ID_USER) :
    resolveUserGroupIds groups (gs.map Group.id) = some gs := by
  induction gs with
  | nil => rfl
  | cons g rest ih =>
    obtain ⟨hg, hne⟩ := h g (List.mem_cons_self g rest)
    simp only [List.map_cons, resolveUserGroupIds]
    rw [if_neg hne, hg, ih (fun q hq => h q (List.mem_cons_of_mem g hq))]
    rfl

theorem load_users_rebuild {groups : List (String × Group)}
    (ul : List (String × User)) :
    ∀ (acc : List (String × User)),
    (dkeys (acc ++ ul)).Nodup →
    (∀ p ∈ ul, p.2.id = p.1 ∧
      ∀ g ∈ p.2.groups, dlookup g.id groups = some g ∧
        g.id ≠ GROUP_ID_USER) →
    load_users (ul.map fun p => serUserRec p.2) groups false acc =
      some (acc ++ ul.map stripAll) := by
  induction ul with
  | nil =>
    intro acc hnd hwf
    simp [load_users]
  | cons p rest ih =>
    intro acc hnd hwf
    obtain ⟨hid, hgs⟩ := hwf p (List.mem_cons_self p rest)
    have hresolve : get_user_groups (serUserRec p.2) groups false =
        some p.2.groups := by
      unfold get_user_groups
      rw [show (serUserRec p.2).group_ids = p.2.groups.map Group.id from rfl,
        resolve_groups_self p.2.groups hgs]
      simp
    simp only [List.map_cons, load_users, hresolve]
    have hkey : (serUserRec p.2).id = p.1 := by
      rw [show (serUserRec p.2).id = p.2.id from rfl, hid]
    have hval : userFromRecord (serUserRec p.2) p.2.groups =
        { p.2 with credentials := [], refresh_tokens := [] } := by
      cases hp2 : p.2 with
      | mk a b c dd e f g hh i => simp [userFromRecord, serUserRec]
    have hfresh : dlookup (serUserRec p.2).id acc = none := by
      rw [hkey, dlookup_none_iff]
      intro hmem
      rw [show dkeys (acc ++ p :: rest) = dkeys acc ++ dkeys (p :: rest) by
        simp [dkeys]] at hnd
      exact (List.nodup_append.mp hnd).2.2 hmem (by simp [dkeys])
    have hsp : stripAll p =
        (p.1, { p.2 with credentials := [], refresh_tokens := [] }) := rfl
    rw [dictSet_fresh _ hfresh, hkey, hval, ← hsp]
    have hnd2 : (dkeys ((acc ++ [stripAll p]) ++ rest)).Nodup := by
      have hx : dkeys ((acc ++ [stripAll p]) ++ rest) =
          dkeys (acc ++ p :: rest) := by
        simp [dkeys, stripAll]
      rw [hx]
      exact hnd
    rw [ih (acc ++ [stripAll p]) hnd2
      (fun q hq => hwf q (List.mem_cons_of_mem p hq))]
    simp

/-- A credential record serialized from a non-new credential reloads to the
same credential value. -/
theorem credFromRecord_ser (uid : String) (c : Credentials)
    (h : c.is_new = false) : credFromRecord (serCredRec uid c) = c := by
  cases c with
  | mk i t p d n =>
    have hn : n = false := h
    subst hn
    rfl

/-- Loading the serialized credential block of one user appends its
credentials back to that user and registers them in the credential dict in
order. -/
theorem load_creds_block (uid : String) (cl : List Credentials) :
    ∀ (u : User) (users : List (String × User))
      (acc : List (String × Credentials)),
    (dkeys users).Nodup →
    dlookup uid users = some u →
    (∀ c ∈ cl, c.is_new = false) →
    load_credentials (cl.map fun c => serCredRec uid c) users acc =
      some (dictSet users uid { u with credentials := u.credentials ++ cl },
        insertAll acc (cl.map fun c => (c.id, c))) := by
  induction cl with
  | nil =>
    intro u users acc hnd hu _
    have hu2 : dlookup uid users =
        some { u with credentials := u.credentials ++ [] } := by
      rw [List.append_nil]
      exact hu
    simp only [List.map_nil, load_credentials, insertAll_nil]
    rw [dictSet_self hnd hu2]
  | cons c cl ih =>
    intro u users acc hnd hu hnew
    simp only [List.map_cons, load_credentials]
    have hsc : (serCredRec uid c).user_id = uid := rfl
    rw [hsc]
    simp only [hu]
    rw [credFromRecord_ser uid c (hnew c (List.mem_cons_self c cl))]
    have hid2 : (serCredRec uid c).id = c.id := rfl
    rw [hid2]
    rw [ih { u with credentials := u.credentials ++ [c] }
      (dictSet users uid { u with credentials := u.credentials ++ [c] })
      (dictSet acc c.id c)
      (nodup_dkeys_dictSet _ _ hnd)
      (by rw [dlookup_dictSet]; exact if_pos rfl)
      (fun c2 hc2 => hnew c2 (List.mem_cons_of_mem c hc2))]
    rw [dictSet_dictSet]
    have hBC : ({ u with credentials := u.credentials ++ [c] } : User).credentials
        ++ cl = u.credentials ++ c :: cl := by
      simp
    rw [hBC]
    rfl

/-- Sequential composition of `load_credentials` over an append, given that
the first half succeeds. -/
theorem load_credentials_append_ok {a : List CredRecord} (b : List CredRecord) :
    ∀ {users users2 : List (String × User)}
      {acc acc2 : List (String × Credentials)},
    load_credentials a users acc = some (users2, acc2) →
    load_credentials (a ++ b) users acc = load_credentials b users2 acc2 := by
  induction a with
  | nil =>
    intro users users2 acc acc2 h
    obtain ⟨rfl, rfl⟩ := Prod.mk.inj (Option.some.inj h)
    rfl
  | cons c rest ih =>
    intro users users2 acc acc2 h
    rw [List.cons_append]
    unfold load_credentials at h
    split at h
    · exact absurd h (by simp)
    · rename_i u hu
      simp only [load_credentials, hu]
      exact ih h

/-- `stripAll` keeps the keys of a user dict. -/
theorem dkeys_map_stripAll (l : List (String × User)) :
    dkeys (l.map stripAll) = dkeys l := by
  induction l with
  | nil => rfl
  | cons q t ih =>
    simp only [List.map_cons, dkeys] at ih ⊢
    rw [ih]
    rfl

/-- `stripTok` keeps the keys of a user dict. -/
theorem dkeys_map_stripTok (l : List (String × User)) :
    dkeys (l.map stripTok) = dkeys l := by
  induction l with
  | nil => rfl
  | cons q t ih =>
    simp only [List.map_cons, dkeys] at ih ⊢
    rw [ih]
    rfl

/-- Reloading the user-major serialized credential records of a suffix of
token-stripped users appends every credential back to its owner and collects
the credential pairs in order. -/
theorem load_creds_rebuild (ul : List (String × User)) :
    ∀ (done : List (String × User)) (acc : List (String × Credentials)),
    (dkeys (done ++ ul)).Nodup →
    (∀ p ∈ ul, p.2.id = p.1 ∧ ∀ c ∈ p.2.credentials, c.is_new = false) →
    load_credentials
        (ul.flatMap fun p => p.2.credentials.map fun c => serCredRec p.2.id c)
        (done ++ ul.map stripAll) acc =
      some (done ++ ul.map stripTok,
        insertAll acc
          (ul.flatMap fun p => p.2.credentials.map fun c => (c.id, c))) := by
  induction ul with
  | nil =>
    intro done acc _ _
    simp only [List.flatMap_nil, List.map_nil, List.append_nil,
      load_credentials, insertAll_nil]
  | cons p rest ih =>
    intro done acc hnd hwf
    obtain ⟨hid, hnew⟩ := hwf p (List.mem_cons_self p rest)
    have hkeys : dkeys (done ++ p :: rest) =
        dkeys done ++ p.1 :: dkeys rest := by
      simp [dkeys]
    rw [hkeys] at hnd
    obtain ⟨hndA, hndB, hdisj⟩ := List.nodup_append.mp hnd
    have hprest : p.1 ∉ dkeys rest := (List.nodup_cons.mp hndB).1
    have hpdone : p.1 ∉ dkeys done := fun hmem =>
      hdisj hmem (List.mem_cons_self _ _)
    have hsA : stripAll p =
        (p.1, { p.2 with credentials := [], refresh_tokens := [] }) := rfl
    simp only [List.flatMap_cons, List.map_cons]
    have hkeys2 : dkeys (done ++ stripAll p :: List.map stripAll rest) =
        dkeys done ++ p.1 :: dkeys rest := by
      have h1 : dkeys (List.map stripAll rest) = dkeys rest :=
        dkeys_map_stripAll rest
      simp only [dkeys, List.map_append, List.map_cons] at h1 ⊢
      rw [h1]
      rfl
    have hndu : (dkeys (done ++ stripAll p :: List.map stripAll rest)).Nodup := by
      rw [hkeys2]
      exact hnd
    have hlu : dlookup p.1 (done ++ stripAll p :: List.map stripAll rest) =
        some { p.2 with credentials := [], refresh_tokens := [] } := by
      rw [dlookup_append, (dlookup_none_iff _ done).mpr hpdone, oor_none]
      simp [dlookup, stripAll]
    rw [hid]
    rw [load_credentials_append_ok
      (rest.flatMap fun p => p.2.credentials.map fun c => serCredRec p.2.id c)
      (load_creds_block p.1 p.2.credentials
        { p.2 with credentials := [], refresh_tokens := [] }
        (done ++ stripAll p :: List.map stripAll rest) acc hndu hlu hnew)]
    rw [hsA]
    rw [dictSet_middle _ _ _ hpdone
      (by rw [dkeys_map_stripAll]; exact hprest)]
    rw [List.append_cons]
    refine Eq.trans (ih (done ++ [stripTok p]) _
      (by
        simp only [dkeys, List.map_append, List.map_cons, List.map_nil] at hnd ⊢
        simpa [List.append_assoc, stripTok] using hnd)
      (fun q hq => hwf q (List.mem_cons_of_mem p hq))) ?_
    rw [insertAll_append, ← List.append_cons]

/-- A refresh-token record serialized from a token reloads to the same token
value, provided its optional credential link resolves to that credential in
the credential dict. -/
theorem tokenFromRecord_ser (uid : String) (rt : RefreshToken)
    (credsD : List (String × Credentials))
    (hc : ∀ c, rt.credential = some c → dlookup c.id credsD = some c) :
    tokenFromRecord (serTokenRec uid rt) rt.created_at credsD = rt := by
  obtain ⟨i, cid, cn, ci, tt, ca, ate, tok, jk, lua, lip, ea, cred, ver⟩ := rt
  have hlua : (lua.map isoformat).bind parse_datetime = lua := by
    cases lua with
    | none => rfl
    | some t => rfl
  have hcred : (cred.map Credentials.id).bind (fun x => dlookup x credsD) =
      cred := by
    cases cred with
    | none => rfl
    | some c => exact hc c rfl
  calc tokenFromRecord (serTokenRec uid
        (RefreshToken.mk i cid cn ci tt ca ate tok jk lua lip ea cred ver))
        ca credsD
      = RefreshToken.mk i cid cn ci tt ca ate tok jk
          ((lua.map isoformat).bind parse_datetime) lip ea
          ((cred.map Credentials.id).bind (fun x => dlookup x credsD)) ver := rfl
    _ = RefreshToken.mk i cid cn ci tt ca ate tok jk lua lip ea cred ver := by
        rw [hlua, hcred]

/-- One reduction step of `load_refresh_tokens` on a serialized (hence
well-formed) token record. -/
theorem load_refresh_tokens_ser_step (uid : String) (rt : RefreshToken)
    (rest : List RefreshTokenRecord) (users : List (String × User))
    (credsD : List (String × Credentials)) :
    load_refresh_tokens (serTokenRec uid rt :: rest) users credsD =
      match dlookup uid users with
      | none => none
      | some u =>
        load_refresh_tokens rest
          (dictSet users uid
            { u with refresh_tokens := (dictSet u.refresh_tokens
                (tokenFromRecord (serTokenRec uid rt) rt.created_at credsD).id
                (tokenFromRecord (serTokenRec uid rt) rt.created_at credsD)) })
          credsD := rfl

/-- Loading the serialized refresh-token block of one user inserts its tokens
back into that user in order, with no log entries. -/
theorem load_toks_block (uid : String) (tl : List (String × RefreshToken)) :
    ∀ (u : User) (users : List (String × User))
      (credsD : List (String × Credentials)),
    (dkeys users).Nodup →
    dlookup uid users = some u →
    (∀ q ∈ tl, q.2.id = q.1 ∧
      ∀ c, q.2.credential = some c → dlookup c.id credsD = some c) →
    load_refresh_tokens (tl.map fun q => serTokenRec uid q.2) users credsD =
      some (dictSet users uid
        { u with refresh_tokens := insertAll u.refresh_tokens tl }, []) := by
  induction tl with
  | nil =>
    intro u users credsD hnd hu _
    have hu2 : dlookup uid users =
        some { u with refresh_tokens := u.refresh_tokens } := hu
    simp only [List.map_nil, load_refresh_tokens, insertAll_nil]
    rw [dictSet_self hnd hu2]
  | cons q tl ih =>
    intro u users credsD hnd hu hq
    obtain ⟨hqid, hqc⟩ := hq q (List.mem_cons_self q tl)
    simp only [List.map_cons]
    rw [load_refresh_tokens_ser_step]
    simp only [hu]
    rw [tokenFromRecord_ser uid q.2 credsD hqc, hqid]
    refine Eq.trans (ih { u with refresh_tokens := dictSet u.refresh_tokens q.1 q.2 }
      _ credsD (nodup_dkeys_dictSet _ _ hnd)
      (by rw [dlookup_dictSet]; exact if_pos rfl)
      (fun q2 hq2 => hq q2 (List.mem_cons_of_mem q hq2))) ?_
    rw [dictSet_dictSet]
    rfl

/-- Sequential composition of `load_refresh_tokens` over an append, given
that the first half succeeds with an empty log. -/
theorem load_refresh_tokens_append_ok {a : List RefreshTokenRecord}
    (b : List RefreshTokenRecord) :
    ∀ {users users2 : List (String × User)}
      {credsD : List (String × Credentials)},
    load_refresh_tokens a users credsD = some (users2, []) →
    load_refresh_tokens (a ++ b) users credsD =
      load_refresh_tokens b users2 credsD := by
  induction a with
  | nil =>
    intro users users2 credsD h
    obtain ⟨rfl, -⟩ := Prod.mk.inj (Option.some.inj h)
    rfl
  | cons r rest ih =>
    intro users users2 credsD h
    rw [List.cons_append]
    unfold load_refresh_tokens at h
    split at h
    · rename_i hjwt
      simp only [load_refresh_tokens, if_pos hjwt]
      exact ih h
    · rename_i hjwt
      split at h
      · rename_i hca
        cases hrec : load_refresh_tokens rest users credsD with
        | none =>
          rw [hrec] at h
          exact absurd h (by simp)
        | some pr =>
          rw [hrec] at h
          simp only [Option.map_some'] at h
          obtain ⟨-, hlog⟩ := Prod.mk.inj (Option.some.inj h)
          exact absurd hlog (List.cons_ne_nil _ _)
      · rename_i str hca
        split at h
        · rename_i hparse
          cases hrec : load_refresh_tokens rest users credsD with
          | none =>
            rw [hrec] at h
            exact absurd h (by simp)
          | some pr =>
            rw [hrec] at h
            simp only [Option.map_some'] at h
            obtain ⟨-, hlog⟩ := Prod.mk.inj (Option.some.inj h)
            exact absurd hlog (List.cons_ne_nil _ _)
        · rename_i created_at hparse
          split at h
          · exact absurd h (by simp)
          · rename_i u hu
            simp only [load_refresh_tokens, if_neg hjwt, hca, hparse, hu]
            exact ih h

/-- Reloading the user-major serialized refresh-token records of a suffix of
token-stripped users restores every user exactly, with an empty log. -/
theorem load_toks_rebuild (ul : List (String × User)) :
    ∀ (done : List (String × User)) (credsD : List (String × Credentials)),
    (dkeys (done ++ ul)).Nodup →
    (∀ p ∈ ul, p.2.id = p.1 ∧ (dkeys p.2.refresh_tokens).Nodup ∧
      ∀ q ∈ p.2.refresh_tokens, q.2.id = q.1 ∧
        ∀ c, q.2.credential = some c → dlookup c.id credsD = some c) →
    load_refresh_tokens
        (ul.flatMap fun p =>
          p.2.refresh_tokens.map fun q => serTokenRec p.2.id q.2)
        (done ++ ul.map stripTok) credsD =
      some (done ++ ul, []) := by
  induction ul with
  | nil =>
    intro done credsD _ _
    simp only [List.flatMap_nil, List.map_nil, List.append_nil,
      load_refresh_tokens]
  | cons p rest ih =>
    intro done credsD hnd hwf
    obtain ⟨hid, hndtok, htoks⟩ := hwf p (List.mem_cons_self p rest)
    have hkeys : dkeys (done ++ p :: rest) =
        dkeys done ++ p.1 :: dkeys rest := by
      simp [dkeys]
    rw [hkeys] at hnd
    obtain ⟨hndA, hndB, hdisj⟩ := List.nodup_append.mp hnd
    have hprest : p.1 ∉ dkeys rest := (List.nodup_cons.mp hndB).1
    have hpdone : p.1 ∉ dkeys done := fun hmem =>
      hdisj hmem (List.mem_cons_self _ _)
    have hsT : stripTok p = (p.1, { p.2 with refresh_tokens := [] }) := rfl
    simp only [List.flatMap_cons, List.map_cons]
    rw [hid]
    have hkeys2 : dkeys (done ++ stripTok p :: List.map stripTok rest) =
        dkeys done ++ p.1 :: dkeys rest := by
      have h1 : dkeys (List.map stripTok rest) = dkeys rest :=
        dkeys_map_stripTok rest
      simp only [dkeys, List.map_append, List.map_cons] at h1 ⊢
      rw [h1]
      rfl
    have hndu : (dkeys (done ++ stripTok p :: List.map stripTok rest)).Nodup := by
      rw [hkeys2]
      exact hnd
    have hlu : dlookup p.1 (done ++ stripTok p :: List.map stripTok rest) =
        some { p.2 with refresh_tokens := [] } := by
      rw [dlookup_append, (dlookup_none_iff _ done).mpr hpdone, oor_none]
      simp [dlookup, stripTok]
    have hblock := load_toks_block p.1 p.2.refresh_tokens
      { p.2 with refresh_tokens := [] }
      (done ++ stripTok p :: List.map stripTok rest) credsD hndu hlu htoks
    have hfold : insertAll
        ({ p.2 with refresh_tokens := ([] : List (String × RefreshToken)) }
          : User).refresh_tokens p.2.refresh_tokens = p.2.refresh_tokens :=
      Eq.trans (insertAll_fresh hndtok (fun kk _ => List.not_mem_nil kk))
        (List.nil_append _)
    rw [hfold] at hblock
    rw [load_refresh_tokens_append_ok
      (rest.flatMap fun p =>
        p.2.refresh_tokens.map fun q => serTokenRec p.2.id q.2) hblock]
    rw [hsT]
    rw [dictSet_middle _ _ _ hpdone
      (by rw [dkeys_map_stripTok]; exact hprest)]
    rw [List.append_cons]
    refine Eq.trans (ih (done ++ [p]) credsD
      (by
        simp only [dkeys, List.map_append, List.map_cons, List.map_nil] at hnd ⊢
        simpa [List.append_assoc] using hnd)
      (fun q hq => hwf q (List.mem_cons_of_mem p hq))) ?_
    rw [← List.append_cons]

/-- Every group resolved by `resolveUserGroupIds` over an entry-wf group dict
is stored under its own id and is never the Users group (the Users id is
rewritten to the admin id before lookup). -/
theorem resolveUserGroupIds_prop {groups : List (String × Group)}
    (hwfG : ∀ p ∈ groups, GroupEntryWf p) :
    ∀ (gids : List String) (gs : List Group),
    resolveUserGroupIds groups gids = some gs →
    ∀ g ∈ gs, dlookup g.id groups = some g ∧ g.id ≠ GROUP_ID_USER := by
  intro gids
  induction gids with
  | nil =>
    intro gs h
    obtain rfl := Option.some.inj h
    intro g hg
    exact absurd hg (List.not_mem_nil g)
  | cons gid rest ih =>
    intro gs h
    simp only [resolveUserGroupIds] at h
    split at h
    · exact absurd h (by simp)
    · rename_i g0 heq
      cases hres : resolveUserGroupIds groups rest with
      | none =>
        rw [hres] at h
        exact absurd h (by simp)
      | some gs0 =>
        rw [hres] at h
        simp only [Option.map_some'] at h
        obtain rfl := Option.some.inj h
        have hwf0 := hwfG _ (mem_of_dlookup heq)
        have hkey : (if gid = GROUP_ID_USER then GROUP_ID_ADMIN else gid) ≠
            GROUP_ID_USER := by
          by_cases hgu : gid = GROUP_ID_USER
          · rw [if_pos hgu]
            decide
          · rw [if_neg hgu]
            exact hgu
        intro g hg
        cases List.mem_cons.mp hg with
        | inl hg0 =>
          subst hg0
          refine ⟨?_, ?_⟩
          · rw [hwf0.1]
            exact heq
          · rw [hwf0.1]
            exact hkey
        | inr hmem => exact ih gs0 hres g hmem

/-- The groups assembled by `get_user_groups` over an entry-wf group dict are
stored under their own ids and never the Users group. -/
theorem get_user_groups_prop {r : UserRecord} {groups : List (String × Group)}
    {migrate : Bool} {ug : List Group}
    (hwfG : ∀ p ∈ groups, GroupEntryWf p)
    (h : get_user_groups r groups migrate = some ug) :
    ∀ g ∈ ug, dlookup g.id groups = some g ∧ g.id ≠ GROUP_ID_USER := by
  unfold get_user_groups at h
  cases hres : resolveUserGroupIds groups r.group_ids with
  | none =>
    rw [hres] at h
    exact absurd h (by simp)
  | some base =>
    rw [hres] at h
    simp only [] at h
    split at h
    · split at h
      · exact absurd h (by simp)
      · rename_i g0 hg0
        obtain rfl := Option.some.inj h
        intro g hg
        cases List.mem_append.mp hg with
        | inl hmem =>
          exact resolveUserGroupIds_prop hwfG r.group_ids base hres g hmem
        | inr hmem =>
          rw [List.mem_singleton.mp hmem]
          have hwf0 := hwfG _ (mem_of_dlookup hg0)
          have hid0 : g0.id = GROUP_ID_ADMIN := hwf0.1
          refine ⟨?_, ?_⟩
          · rw [hid0]
            exact hg0
          · rw [hid0]
            decide
    · obtain rfl := Option.some.inj h
      exact resolveUserGroupIds_prop hwfG r.group_ids base hres

/-- Any property guaranteed for every user built by `userFromRecord` holds
for every user loaded by `load_users`. -/
theorem load_users_prop {P : User → Prop} {records : List UserRecord}
    {groups : List (String × Group)} {migrate : Bool}
    {users users2 : List (String × User)}
    (hstab : ∀ r ug, get_user_groups r groups migrate = some ug →
      P (userFromRecord r ug))
    (hP : ∀ uid u, dlookup uid users = some u → P u)
    (h : load_users records groups migrate users = some users2) :
    ∀ uid u, dlookup uid users2 = some u → P u := by
  induction records generalizing users with
  | nil =>
    obtain rfl := Option.some.inj h
    exact hP
  | cons r rest ih =>
    unfold load_users at h
    split at h
    · exact absurd h (by simp)
    · rename_i ug hug
      refine ih ?_ h
      intro uid u hu
      rw [dlookup_dictSet] at hu
      by_cases he : r.id = uid
      · rw [if_pos he] at hu
        obtain rfl := Option.some.inj hu
        exact hstab r ug hug
      · rw [if_neg he] at hu
        exact hP uid u hu

/-- Variant of `load_credentials_prop` whose stability hypothesis sees the
exact reconstructed credential being appended. -/
theorem load_credentials_prop2 {P : User → Prop} {records : List CredRecord}
    {users users2 : List (String × User)}
    {creds creds2 : List (String × Credentials)}
    (hstab : ∀ u (c : CredRecord), P u →
      P { u with credentials := u.credentials ++ [credFromRecord c] })
    (hP : ∀ uid u, dlookup uid users = some u → P u)
    (h : load_credentials records users creds = some (users2, creds2)) :
    ∀ uid u, dlookup uid users2 = some u → P u := by
  induction records generalizing users creds with
  | nil =>
    obtain ⟨rfl, rfl⟩ := Prod.mk.inj (Option.some.inj h)
    exact hP
  | cons c rest ih =>
    unfold load_credentials at h
    split at h
    · exact absurd h (by simp)
    · rename_i u hu
      refine ih ?_ h
      intro uid u2 hu2
      rw [dlookup_dictSet] at hu2
      by_cases he : c.user_id = uid
      · rw [if_pos he] at hu2
        obtain rfl := Option.some.inj hu2
        exact hstab u c (hP c.user_id u hu)
      · rw [if_neg he] at hu2
        exact hP uid u2 hu2

/-- Variant of `load_refresh_tokens_prop` whose stability hypothesis sees the
exact reconstructed token being inserted. -/
theorem load_refresh_tokens_prop2 {P : User → Prop}
    {records : List RefreshTokenRecord}
    {users users2 : List (String × User)}
    {creds : List (String × Credentials)} {log : List String}
    (hstab : ∀ u (r : RefreshTokenRecord) (ca : Nat), P u →
      P { u with refresh_tokens := (dictSet u.refresh_tokens
        (tokenFromRecord r ca creds).id (tokenFromRecord r ca creds)) })
    (hP : ∀ uid u, dlookup uid users = some u → P u)
    (h : load_refresh_tokens records users creds = some (users2, log)) :
    ∀ uid u, dlookup uid users2 = some u → P u := by
  induction records generalizing users log with
  | nil =>
    obtain ⟨rfl, rfl⟩ := Prod.mk.inj (Option.some.inj h)
    exact hP
  | cons r rest ih =>
    unfold load_refresh_tokens at h
    split at h
    · exact ih hP h
    · split at h
      · cases hrec : load_refresh_tokens rest users creds with
        | none =>
          rw [hrec] at h
          exact absurd h (by simp)
        | some p =>
          obtain ⟨pu, pl⟩ := p
          rw [hrec] at h
          simp only [Option.map_some'] at h
          obtain ⟨rfl, rfl⟩ := Prod.mk.inj (Option.some.inj h)
          exact ih hP hrec
      · split at h
        · cases hrec : load_refresh_tokens rest users creds with
          | none =>
            rw [hrec] at h
            exact absurd h (by simp)
          | some p =>
            obtain ⟨pu, pl⟩ := p
            rw [hrec] at h
            simp only [Option.map_some'] at h
            obtain ⟨rfl, rfl⟩ := Prod.mk.inj (Option.some.inj h)
            exact ih hP hrec
        · split at h
          · exact absurd h (by simp)
          · rename_i u hu
            refine ih ?_ h
            intro uid u2 hu2
            rw [dlookup_dictSet] at hu2
            by_cases he : r.user_id = uid
            · rw [if_pos he] at hu2
              obtain rfl := Option.some.inj hu2
              exact hstab u r _ (hP r.user_id u hu)
            · rw [if_neg he] at hu2
              exact hP uid u2 hu2

/-- Membership in the flattened global credential list. -/
theorem mem_globalCreds {users : List (String × User)} {x : Credentials} :
    x ∈ globalCreds users ↔ ∃ p, p ∈ users ∧ x ∈ p.2.credentials := by
  simp [globalCreds, List.mem_flatMap]

/-- `(k, v)` is always an entry of `dictSet d k v`. -/
theorem mem_dictSet_self {α : Type} (d : List (String × α)) (k : String)
    (v : α) : (k, v) ∈ dictSet d k v := by
  unfold dictSet
  by_cases h : (dlookup k d).isSome
  · rw [if_pos h]
    obtain ⟨w, hw⟩ := Option.isSome_iff_exists.mp h
    refine List.mem_map.mpr ⟨(k, w), mem_of_dlookup hw, ?_⟩
    simp
  · rw [if_neg h]
    exact List.mem_append_right _ (List.mem_singleton.mpr rfl)

/-- Flattened credentials are unchanged under an entry-wise map keeping every
credential list. -/
theorem globalCreds_congr {l : List (String × User)}
    {f : String × User → String × User}
    (h : ∀ p ∈ l, ((f p).2).credentials = p.2.credentials) :
    globalCreds (l.map f) = globalCreds l := by
  induction l with
  | nil => rfl
  | cons p rest ih =>
    simp only [List.map_cons, globalCreds, List.flatMap_cons] at ih ⊢
    rw [h p (List.mem_cons_self p rest),
      ih (fun q hq => h q (List.mem_cons_of_mem p hq))]

/-- In-place update of one user keeping its credential list keeps the global
credential list. -/
theorem globalCreds_dictSet_eq {users : List (String × User)} {k : String}
    {u u' : User} (hnd : (dkeys users).Nodup)
    (hu : dlookup k users = some u) (hc : u'.credentials = u.credentials) :
    globalCreds (dictSet users k u') = globalCreds users := by
  rw [dictSet_present_map u' hu]
  apply globalCreds_congr
  intro p hp
  cases p with
  | mk a b =>
    by_cases hpk : a = k
    · have hlp : dlookup a users = some b := dlookup_of_mem_nodup hnd hp
      rw [hpk] at hlp
      rw [hlp] at hu
      obtain rfl := Option.some.inj hu
      have hif : ((a, b) : String × User).1 = k := hpk
      rw [if_pos hif]
      exact hc
    · have hif : ¬((a, b) : String × User).1 = k := hpk
      rw [if_neg hif]

/-- Growing one user's credential list only grows the global credential
list. -/
theorem globalCreds_dictSet_super {users : List (String × User)} {k : String}
    {u u' : User} (hnd : (dkeys users).Nodup) (hu : dlookup k users = some u)
    (hsub : ∀ x ∈ u.credentials, x ∈ u'.credentials) :
    ∀ x ∈ globalCreds users, x ∈ globalCreds (dictSet users k u') := by
  intro x hx
  rw [dictSet_present_map u' hu]
  obtain ⟨p, hp, hxp⟩ := mem_globalCreds.mp hx
  refine mem_globalCreds.mpr
    ⟨if p.1 = k then (k, u') else p, List.mem_map.mpr ⟨p, hp, rfl⟩, ?_⟩
  by_cases hpk : p.1 = k
  · rw [if_pos hpk]
    cases p with
    | mk a b =>
      have hak : a = k := hpk
      have hlp : dlookup a users = some b := dlookup_of_mem_nodup hnd hp
      rw [hak] at hlp
      rw [hlp] at hu
      obtain rfl := Option.some.inj hu
      exact hsub x hxp
  · rw [if_neg hpk]
    exact hxp

/-- A credential of the updated user is in the global credential list after
the update. -/
theorem mem_globalCreds_dictSet_self {users : List (String × User)}
    {k : String} {u' : User} :
    ∀ x ∈ u'.credentials, x ∈ globalCreds (dictSet users k u') := by
  intro x hx
  exact mem_globalCreds.mpr ⟨(k, u'), mem_dictSet_self users k u', hx⟩

/-- `load_refresh_tokens` never changes any user's credential list. -/
theorem load_refresh_tokens_globalCreds {records : List RefreshTokenRecord}
    {users users2 : List (String × User)}
    {creds : List (String × Credentials)} {log : List String}
    (hnd : (dkeys users).Nodup)
    (h : load_refresh_tokens records users creds = some (users2, log)) :
    globalCreds users2 = globalCreds users := by
  induction records generalizing users log with
  | nil =>
    obtain ⟨rfl, rfl⟩ := Prod.mk.inj (Option.some.inj h)
    rfl
  | cons r rest ih =>
    unfold load_refresh_tokens at h
    split at h
    · exact ih hnd h
    · split at h
      · cases hrec : load_refresh_tokens rest users creds with
        | none =>
          rw [hrec] at h
          exact absurd h (by simp)
        | some p =>
          obtain ⟨pu, pl⟩ := p
          rw [hrec] at h
          simp only [Option.map_some'] at h
          obtain ⟨rfl, rfl⟩ := Prod.mk.inj (Option.some.inj h)
          exact ih hnd hrec
      · split at h
        · cases hrec : load_refresh_tokens rest users creds with
          | none =>
            rw [hrec] at h
            exact absurd h (by simp)
          | some p =>
            obtain ⟨pu, pl⟩ := p
            rw [hrec] at h
            simp only [Option.map_some'] at h
            obtain ⟨rfl, rfl⟩ := Prod.mk.inj (Option.some.inj h)
            exact ih hnd hrec
        · split at h
          · exact absurd h (by simp)
          · rename_i u hu
            rw [ih (nodup_dkeys_dictSet _ _ hnd) h]
            exact globalCreds_dictSet_eq hnd hu rfl

/-- Every credential registered in the credential dict by `load_credentials`
is held by some user of the resulting user dict. -/
theorem load_credentials_vals {records : List CredRecord} :
    ∀ {users users2 : List (String × User)}
      {acc creds2 : List (String × Credentials)},
    (dkeys users).Nodup →
    (∀ q ∈ acc, q.2 ∈ globalCreds users) →
    load_credentials records users acc = some (users2, creds2) →
    ∀ q ∈ creds2, q.2 ∈ globalCreds users2 := by
  induction records with
  | nil =>
    intro users users2 acc creds2 hnd hacc h
    obtain ⟨rfl, rfl⟩ := Prod.mk.inj (Option.some.inj h)
    exact hacc
  | cons c rest ih =>
    intro users users2 acc creds2 hnd hacc h
    unfold load_credentials at h
    split at h
    · exact absurd h (by simp)
    · rename_i u hu
      refine ih (nodup_dkeys_dictSet _ _ hnd) ?_ h
      intro q hq
      have hall : ∀ q2 ∈ acc, q2.2 ∈ globalCreds (dictSet users c.user_id
          { u with credentials := u.credentials ++ [credFromRecord c] }) :=
        fun q2 hq2 => globalCreds_dictSet_super hnd hu
          (fun x hx => List.mem_append_left _ hx) q2.2 (hacc q2 hq2)
      have hkv : ((c.id, credFromRecord c) : String × Credentials).2 ∈
          globalCreds (dictSet users c.user_id
            { u with credentials := u.credentials ++ [credFromRecord c] }) :=
        mem_globalCreds_dictSet_self (credFromRecord c)
          (List.mem_append_right _ (List.mem_singleton.mpr rfl))
      exact mem_dictSet_prop hall hkv q hq

/-- The user-major credential pair list rebuilding the credential dict. -/
def credPairs (users : List (String × User)) :
    List (String × Credentials) :=
  users.flatMap fun p => p.2.credentials.map fun c => (c.id, c)

theorem dkeys_credPairs (users : List (String × User)) :
    dkeys (credPairs users) = (globalCreds users).map Credentials.id := by
  induction users with
  | nil => rfl
  | cons p rest ih =>
    simp only [credPairs, globalCreds, List.flatMap_cons, dkeys,
      List.map_append, List.map_map] at ih ⊢
    rw [ih]
    rfl

theorem mem_credPairs {users : List (String × User)} {c : Credentials}
    (h : c ∈ globalCreds users) : (c.id, c) ∈ credPairs users := by
  obtain ⟨p, hp, hcp⟩ := mem_globalCreds.mp h
  unfold credPairs
  exact List.mem_flatMap.mpr ⟨p, hp, List.mem_map.mpr ⟨c, hcp, rfl⟩⟩

/-- Structural facts holding for every successfully loaded store, used for
the serialize/reload round trip: entry-wf nodup groups containing the three
system groups; nodup users keyed by their own ids, whose groups resolve to
themselves in the group dict and are never the Users group, whose
credentials are non-new, and whose token maps have nodup keys, are keyed by
the token ids, and link only to credentials present in the global credential
list; and a token index that is exactly the rebuilt one. -/
def LoadedWf (s : AuthStore) : Prop :=
  (∀ p ∈ s.groups, GroupEntryWf p) ∧ (dkeys s.groups).Nodup ∧
  GROUP_ID_ADMIN ∈ dkeys s.groups ∧ GROUP_ID_USER ∈ dkeys s.groups ∧
  GROUP_ID_READ_ONLY ∈ dkeys s.groups ∧
  (dkeys s.users).Nodup ∧
  (∀ p ∈ s.users, p.2.id = p.1 ∧
    (∀ g ∈ p.2.groups, dlookup g.id s.groups = some g ∧
      g.id ≠ GROUP_ID_USER) ∧
    (∀ c ∈ p.2.credentials, c.is_new = false) ∧
    (dkeys p.2.refresh_tokens).Nodup ∧
    (∀ q ∈ p.2.refresh_tokens, q.2.id = q.1 ∧
      ∀ c, q.2.credential = some c → c ∈ globalCreds s.users)) ∧
  s.token_id_to_user_id = build_token_id_to_user_id s.users

/-- Every successfully loaded store satisfies `LoadedWf`. -/
theorem async_load_loadedWf {d : Option PersistedDoc} {s : AuthStore}
    (h : async_load d = some s) : LoadedWf s := by
  cases d with
  | none =>
    obtain rfl := Option.some.inj h
    have hgl : set_defaults.groups =
        [(GROUP_ID_ADMIN, system_admin_group),
         (GROUP_ID_USER, system_user_group),
         (GROUP_ID_READ_ONLY, system_read_only_group)] := rfl
    refine ⟨?_, by decide, by decide, by decide, by decide,
      List.nodup_nil, ?_, rfl⟩
    · intro p hp
      rw [hgl] at hp
      simp only [List.mem_cons, List.not_mem_nil, or_false] at hp
      rcases hp with rfl | rfl | rfl
      · exact groupEntryWf_admin
      · exact groupEntryWf_user
      · exact groupEntryWf_read_only
    · intro p hp
      exact absurd hp (List.not_mem_nil p)
  | some d =>
    obtain ⟨users1, users2, creds, users3, log, h1, h2, h3, rfl⟩ := load_spec h
    have hwf1 : UsersWf users1 := load_users_wf usersWf_nil h1
    have hwf2 : UsersWf users2 := load_credentials_wf hwf1 h2
    have hwf3 : UsersWf users3 := load_refresh_tokens_wf hwf2 h3
    have hgC : globalCreds users3 = globalCreds users2 :=
      load_refresh_tokens_globalCreds hwf2.1 h3
    have hvals : ∀ q ∈ creds, q.2 ∈ globalCreds users2 :=
      load_credentials_vals hwf1.1
        (fun q hq => absurd hq (List.not_mem_nil q)) h2
    have hPg : ∀ uid u, dlookup uid users3 = some u →
        ∀ g ∈ u.groups, dlookup g.id (loadedGroups d) = some g ∧
          g.id ≠ GROUP_ID_USER := by
      refine load_refresh_tokens_prop (fun u tid rt hPu => hPu) ?_ h3
      refine load_credentials_prop (fun u c hPu => hPu) ?_ h2
      refine load_users_prop ?_ ?_ h1
      · intro r ug hug
        exact get_user_groups_prop (loadedGroups_entryWf d) hug
      · intro uid u hu
        exact absurd hu (by simp [dlookup])
    have hPc : ∀ uid u, dlookup uid users3 = some u →
        ∀ c ∈ u.credentials, c.is_new = false := by
      refine load_refresh_tokens_prop (fun u tid rt hPu => hPu) ?_ h3
      refine load_credentials_prop2 ?_ ?_ h2
      · intro u c hPu c2 hc2
        cases List.mem_append.mp hc2 with
        | inl hmem => exact hPu c2 hmem
        | inr hmem =>
          rw [List.mem_singleton.mp hmem]
          rfl
      · refine load_users_prop ?_ ?_ h1
        · intro r ug _ c hc
          exact absurd hc (List.not_mem_nil c)
        · intro uid u hu
          exact absurd hu (by simp [dlookup])
    have hPt : ∀ uid u, dlookup uid users3 = some u →
        ∀ q ∈ u.refresh_tokens, q.2.id = q.1 ∧
          ∀ c, q.2.credential = some c → ∃ k, (k, c) ∈ creds := by
      refine load_refresh_tokens_prop2 ?_ ?_ h3
      · intro u r ca hPu q hq
        refine mem_dictSet_prop hPu ?_ q hq
        refine ⟨rfl, ?_⟩
        intro c hc
        have hc2 : r.credential_id.bind (fun x => dlookup x creds) = some c :=
          hc
        cases hcid : r.credential_id with
        | none =>
          rw [hcid] at hc2
          exact absurd hc2 (by simp)
        | some cid =>
          rw [hcid] at hc2
          exact ⟨cid, mem_of_dlookup hc2⟩
      · refine load_credentials_prop (fun u c hPu => hPu) ?_ h2
        refine load_users_prop ?_ ?_ h1
        · intro r ug _ q hq
          exact absurd hq (List.not_mem_nil q)
        · intro uid u hu
          exact absurd hu (by simp [dlookup])
    refine ⟨loadedGroups_entryWf d, loadedGroups_nodup d, ?_, ?_, ?_,
      hwf3.1, ?_, rfl⟩
    · exact (dlookup_isSome_iff _ _).mp (by rw [loadedGroups_admin d]; rfl)
    · exact (dlookup_isSome_iff _ _).mp (by rw [loadedGroups_user d]; rfl)
    · exact (dlookup_isSome_iff _ _).mp
        (by rw [loadedGroups_read_only d]; rfl)
    · intro p hp
      have hlp : dlookup p.1 users3 = some p.2 :=
        dlookup_of_mem_nodup hwf3.1 (show (p.1, p.2) ∈ users3 from hp)
      obtain ⟨hid, hndt⟩ := hwf3.2 p.1 p.2 hlp
      refine ⟨hid, hPg p.1 p.2 hlp, hPc p.1 p.2 hlp, hndt, ?_⟩
      intro q hq
      obtain ⟨hqid, hqc⟩ := hPt p.1 p.2 hlp q hq
      refine ⟨hqid, ?_⟩
      intro c hc
      obtain ⟨k, hkc⟩ := hqc c hc
      have hcg : c ∈ globalCreds users2 := hvals (k, c) hkc
      rw [← hgC] at hcg
      exact hcg

/-- Serializing a `LoadedWf` store whose credential ids are globally unique
and loading the result restores the exact same store state. -/
theorem reload_of_loadedWf {s : AuthStore} (hwf : LoadedWf s)
    (hcred : ((globalCreds s.users).map Credentials.id).Nodup) :
    async_load (some (data_to_save s)) = some s := by
  obtain ⟨hgwf, hgnd, hadm, husr, hro, hund, huser, hidx⟩ := hwf
  obtain ⟨hgroups, hmig⟩ := groups_roundtrip hgwf hgnd hadm husr hro
  have h1 : load_users (data_to_save s).users (loadedGroups (data_to_save s))
      (migrateFlag (data_to_save s)) [] = some (s.users.map stripAll) := by
    rw [hgroups, hmig]
    exact load_users_rebuild s.users [] (by exact hund)
      (fun p hp => ⟨(huser p hp).1, (huser p hp).2.1⟩)
  have hins : insertAll ([] : List (String × Credentials))
      (s.users.flatMap fun p => p.2.credentials.map fun c => (c.id, c)) =
      credPairs s.users := by
    refine Eq.trans (insertAll_fresh ?_ (fun kk _ => List.not_mem_nil kk))
      (List.nil_append _)
    rw [show (s.users.flatMap fun p =>
        p.2.credentials.map fun c => (c.id, c)) = credPairs s.users from rfl,
      dkeys_credPairs]
    exact hcred
  have h2 : load_credentials (data_to_save s).credentials
      (s.users.map stripAll) [] =
      some (s.users.map stripTok, credPairs s.users) := by
    have hreb := load_creds_rebuild s.users [] [] (by exact hund)
      (fun p hp => ⟨(huser p hp).1, (huser p hp).2.2.1⟩)
    rw [hins] at hreb
    exact hreb
  have hndk : (dkeys (credPairs s.users)).Nodup := by
    rw [dkeys_credPairs]
    exact hcred
  have h3 : load_refresh_tokens (data_to_save s).refresh_tokens
      (s.users.map stripTok) (credPairs s.users) = some (s.users, []) := by
    refine load_toks_rebuild s.users [] (credPairs s.users)
      (by exact hund) ?_
    intro p hp
    obtain ⟨hid, hgp, hcn, hndt, htok⟩ := huser p hp
    refine ⟨hid, hndt, ?_⟩
    intro q hq
    obtain ⟨hqid, hqc⟩ := htok q hq
    refine ⟨hqid, ?_⟩
    intro c hc
    exact dlookup_of_mem_nodup hndk (mem_credPairs (hqc c hc))
  simp only [async_load, h1, h2, h3]
  rw [hgroups, ← hidx]

/-- A document in which two users persist credentials under the same id, and
a refresh token links that id. -/
def exDocDupCred : PersistedDoc :=
  { users := [exUserRec ("u1") [] false, exUserRec ("u2") [] false]
    groups := []
    credentials := [exCredRec ("c") ("u2") ("B"), exCredRec ("c") ("u1") ("A")]
    refresh_tokens :=
      [{ exTokenRec ("t1") ("u2") with credential_id := some ("c") }] }

/-- The store loaded from `exDocDupCred`. -/
def exStoreDupCred : AuthStore :=
  (async_load (some exDocDupCred)).getD set_defaults

/-- **C3.** For every loaded store state whose credential ids are globally
unique across users, serializing it with `data_to_save` and loading the
result yields exactly the original users, groups, credentials and refresh
tokens (loaded states already carry the normalized system groups, so the
reloaded store equals the original state on the nose). -/
theorem c3_serialize_reload_round_trip (d : Option PersistedDoc)
    (s : AuthStore) (hload : async_load d = some s)
    (hcred : ((globalCreds s.users).map Credentials.id).Nodup) :
    async_load (some (data_to_save s)) = some s :=
  reload_of_loadedWf (async_load_loadedWf hload) hcred

theorem c3_serialize_reload_round_trip_witness :
    async_load (some exDocBasic) = some exStoreBasic ∧
    ((globalCreds exStoreBasic.users).map Credentials.id).Nodup ∧
    async_load (some (data_to_save exStoreBasic)) = some exStoreBasic :=
  ⟨by decide, by decide,
    c3_serialize_reload_round_trip (some exDocBasic) exStoreBasic (by decide)
      (by decide)⟩

/-- With a duplicated credential id (possible in a hand-edited document),
loading the serialized state does not restore the original state: the
credential dict is a last-wins comprehension, and serialization reorders the
records user-major, so the token's credential link resolves to the other
credential. -/
theorem c3_counterexample :
    async_load (some exDocDupCred) = some exStoreDupCred ∧
    async_load (some (data_to_save exStoreDupCred)) ≠ some exStoreDupCred :=
  ⟨by decide, by decide⟩

end HA
